import Mathlib

/-!
Shallow embedding of the student/course data-access layer (src/db.py).

Python strings are modelled as lists of characters (`Str`).  The relational
store (MySQL, an external collaborator of the module) is modelled as a record
of table contents (`DB`); each SQL statement issued by the code is translated
to the corresponding pure list operation.  Following the specification of the
store (spec §6 and §8), the unique key on Course.CourseName and all WHERE
comparisons are exact (binary collation), AUTO_INCREMENT identifiers are drawn
from a counter, INSERT IGNORE inserts only when no matching row exists,
and ON DELETE CASCADE removes dependent rows (spec §4.5, §8).

Fallible operations return `Except String DB`; pure variants (suffix `P`)
are proved equivalent and used for reasoning.
-/

/-- Python strings, modelled as lists of characters. -/
abbrev Str := List Char

/-- Model of Python str.casefold (ASCII case folding). -/
def casefold (s : Str) : Str := s.map Char.toLower

/-- Characters removed by Python str.strip (ASCII whitespace). -/
def pySpace (c : Char) : Bool :=
  c == ' ' || c == '\t' || c == '\n' || c == '\r' || c == Char.ofNat 11 || c == Char.ofNat 12

/-- Leading-whitespace removal, as in Python str.lstrip. -/
def lstrip (s : Str) : Str := s.dropWhile pySpace

/-- Trailing-whitespace removal, as in Python str.rstrip. -/
def rstrip (s : Str) : Str := (s.reverse.dropWhile pySpace).reverse

/-- Model of Python str.strip. -/
def strip (s : Str) : Str := rstrip (lstrip s)

/-- Model of Python str.split on a single comma: s.split(","). -/
def splitComma : Str → List Str
  | [] => [[]]
  | c :: rest =>
    if c = ',' then [] :: splitComma rest
    else
      match splitComma rest with
      | [] => [[c]]
      | t :: ts => (c :: t) :: ts

/-- The dedup loop of _normalize_courses: drop empty tokens, keep the first
occurrence of each casefolded key (seen set carried as a list of keys). -/
def dedupCourses : List Str → List Str → List Str
  | [], _ => []
  | p :: rest, seen =>
    if p = [] then dedupCourses rest seen
    else if casefold p ∈ seen then dedupCourses rest seen
    else p :: dedupCourses rest (casefold p :: seen)

/-- Model of _normalize_courses (src/db.py lines 8-20).  The argument is an
Option to model the guard `(courses or "")` against a null input. -/
def normalize_courses (courses : Option Str) : List Str :=
  dedupCourses ((splitComma (courses.getD [])).map strip) []

/-- The separator ", " used by ", ".join(...) and GROUP_CONCAT. -/
def commaSpace : Str := ", ".data

/-- Model of Python sep.join(list). -/
def joinSep (sep : Str) : List Str → Str
  | [] => []
  | [x] => x
  | x :: y :: ys => x ++ sep ++ joinSep sep (y :: ys)

/-- Case-insensitive ordering on names, used for the store's ORDER BY over
course names (keys compared after case folding, then bytewise). -/
abbrev keyLe (a b : Str) : Prop := casefold a ≤ casefold b

instance : DecidableRel keyLe := fun a b =>
  inferInstanceAs (Decidable (casefold a ≤ casefold b))

instance : IsTotal Str keyLe := ⟨fun a b => le_total (casefold a) (casefold b)⟩

instance : IsTrans Str keyLe := ⟨fun _ _ _ h h' => le_trans h h'⟩

/-- The case-insensitive DISTINCT of the store's GROUP_CONCAT: keep the first
occurrence of each casefolded key (spec §4.5: case-insensitive dedupe). -/
def ciDedup : List Str → List Str → List Str
  | [], _ => []
  | p :: rest, seen =>
    if casefold p ∈ seen then ciDedup rest seen
    else p :: ciDedup rest (casefold p :: seen)

/-- Row of the Student table. -/
structure StudentRow where
  sid : Nat
  name : Str
  age : Int
  email : Str
deriving DecidableEq

/-- Row of the StudentDetails table (legacy denormalized CourseS field). -/
structure DetailsRow where
  sid : Nat
  phone : Str
  courseS : Str
deriving DecidableEq

/-- Row of the Course table. -/
structure CourseRow where
  cid : Nat
  name : Str
deriving DecidableEq

/-- The relational store: table contents plus the AUTO_INCREMENT counter for
Course.CourseID.  Enrollment rows are (StudentID, CourseID) pairs. -/
structure DB where
  students : List StudentRow
  details : List DetailsRow
  courses : List CourseRow
  enroll : List (Nat × Nat)
  nextCid : Nat
deriving DecidableEq

/-- The empty store; AUTO_INCREMENT starts at 1. -/
def emptyDB : DB := { students := [], details := [], courses := [], enroll := [], nextCid := 1 }

/-- INSERT IGNORE INTO Course (CourseName) VALUES (name): insert a fresh row
unless a row with that exact name exists (unique key, spec §8). -/
def insert_ignore_course (db : DB) (name : Str) : DB :=
  if db.courses.any (fun r => r.name == name) then db
  else { db with courses := db.courses ++ [{ cid := db.nextCid, name := name }],
                 nextCid := db.nextCid + 1 }

/-- SELECT CourseID FROM Course WHERE CourseName = name (first row). -/
def find_course (db : DB) (name : Str) : Option CourseRow :=
  db.courses.find? (fun r => r.name == name)

/-- Model of ensure_course (src/db.py lines 23-29): insert-ignore then select;
raises when the lookup after the insert finds no row. -/
def ensure_course (db : DB) (name : Str) : Except String (Nat × DB) :=
  match find_course (insert_ignore_course db name) name with
  | some row => Except.ok (row.cid, insert_ignore_course db name)
  | none => Except.error ("Failed to create/find course.")

/-- CourseID of the first row with the given name (0 if absent). -/
def cidOf (courses : List CourseRow) (c : Str) : Nat :=
  ((courses.find? (fun r => r.name == c)).map (fun r => r.cid)).getD 0

/-- Pure runner for ensure_course (the error branch is unreachable). -/
def ensureP (db : DB) (name : Str) : Nat × DB :=
  (cidOf (insert_ignore_course db name).courses name, insert_ignore_course db name)

/-- DELETE FROM StudentCourse WHERE StudentID = sid. -/
def delete_enrollments (db : DB) (sid : Nat) : DB :=
  { db with enroll := db.enroll.filter (fun p => p.1 != sid) }

/-- INSERT IGNORE INTO StudentCourse (StudentID, CourseID) VALUES (sid, cid). -/
def insert_ignore_enrollment (db : DB) (sid cid : Nat) : DB :=
  if (sid, cid) ∈ db.enroll then db
  else { db with enroll := db.enroll ++ [(sid, cid)] }

/-- The for-loop of set_student_courses: ensure each course and insert the
enrollment pair (faithful Except version). -/
def enroll_loopE (sid : Nat) : List Str → DB → Except String DB
  | [], db => Except.ok db
  | c :: rest, db =>
    match ensure_course db c with
    | Except.error e => Except.error e
    | Except.ok (cid, db1) => enroll_loopE sid rest (insert_ignore_enrollment db1 sid cid)

/-- Pure version of the enrollment loop. -/
def enroll_loop (sid : Nat) : List Str → DB → DB
  | [], db => db
  | c :: rest, db =>
    enroll_loop sid rest (insert_ignore_enrollment (ensureP db c).2 sid (ensureP db c).1)

/-- UPDATE StudentDetails SET CourseS = cs WHERE StudentID = sid. -/
def update_legacy (db : DB) (sid : Nat) (cs : Str) : DB :=
  { db with details := db.details.map (fun d => if d.sid = sid then { d with courseS := cs } else d) }

/-- Model of set_student_courses (src/db.py lines 32-46): normalize, delete
all enrollment rows of the student, re-insert via ensure_course, then write
the normalized comma-joined list into the legacy CourseS field. -/
def set_student_courses (db : DB) (student_id : Nat) (courses_csv : Str) : Except String DB :=
  match enroll_loopE student_id (normalize_courses (some courses_csv))
      (delete_enrollments db student_id) with
  | Except.error e => Except.error e
  | Except.ok db2 =>
    Except.ok (update_legacy db2 student_id
      (joinSep commaSpace (normalize_courses (some courses_csv))))

/-- Pure version of set_student_courses. -/
def set_student_coursesP (db : DB) (student_id : Nat) (courses_csv : Str) : DB :=
  update_legacy
    (enroll_loop student_id (normalize_courses (some courses_csv))
      (delete_enrollments db student_id))
    student_id
    (joinSep commaSpace (normalize_courses (some courses_csv)))

/-- INSERT ... ON DUPLICATE KEY UPDATE into StudentDetails (keyed on the
StudentID primary key): update PhoneNumber and CourseS if a row exists,
otherwise insert a new row. -/
def upsert_details_row (db : DB) (sid : Nat) (phone csv : Str) : DB :=
  if db.details.any (fun d => d.sid == sid) then
    { db with details := db.details.map (fun d =>
        if d.sid = sid then { d with phone := phone, courseS := csv } else d) }
  else { db with details := db.details ++ [{ sid := sid, phone := phone, courseS := csv }] }

/-- Model of upsert_student_details (src/db.py lines 49-61): upsert the raw
phone and CSV, then rebuild the normalized enrollment. -/
def upsert_student_details (db : DB) (student_id : Nat) (phone courses_csv : Str) :
    Except String DB :=
  set_student_courses (upsert_details_row db student_id phone courses_csv) student_id courses_csv

/-- Pure version of upsert_student_details. -/
def upsert_student_detailsP (db : DB) (student_id : Nat) (phone courses_csv : Str) : DB :=
  set_student_coursesP (upsert_details_row db student_id phone courses_csv) student_id courses_csv

/-- Model of insert_student (src/db.py lines 99-104): INSERT INTO Student
(duplicate key surfaces as an IntegrityError), then upsert details. -/
def insert_student (db : DB) (student_id : Nat) (name : Str) (age : Int)
    (email phone courses_csv : Str) : Except String DB :=
  if db.students.any (fun s => s.sid == student_id) then
    Except.error ("IntegrityError: duplicate StudentID")
  else
    upsert_student_details
      { db with students := db.students ++
          [{ sid := student_id, name := name, age := age, email := email }] }
      student_id phone courses_csv

/-- Pure version of insert_student (identity on a duplicate key, since the
failing INSERT leaves the store unchanged). -/
def insert_studentP (db : DB) (student_id : Nat) (name : Str) (age : Int)
    (email phone courses_csv : Str) : DB :=
  if db.students.any (fun s => s.sid == student_id) then db
  else
    upsert_student_detailsP
      { db with students := db.students ++
          [{ sid := student_id, name := name, age := age, email := email }] }
      student_id phone courses_csv

/-- Model of update_student (src/db.py lines 107-111): mutate Name/Age/Email. -/
def update_student (db : DB) (student_id : Nat) (name : Str) (age : Int) (email : Str) : DB :=
  { db with students := db.students.map (fun s =>
      if s.sid = student_id then { s with name := name, age := age, email := email } else s) }

/-- Model of delete_student (src/db.py lines 114-115); dependent detail and
enrollment rows are removed by the store's ON DELETE CASCADE (spec §4.5). -/
def delete_student (db : DB) (student_id : Nat) : DB :=
  { db with students := db.students.filter (fun s => s.sid != student_id),
            details := db.details.filter (fun d => d.sid != student_id),
            enroll := db.enroll.filter (fun p => p.1 != student_id) }

/-- Model of create_course (src/db.py lines 133-134). -/
def create_course (db : DB) (course_name : Str) : Except String DB :=
  match ensure_course db (strip course_name) with
  | Except.ok p => Except.ok p.2
  | Except.error e => Except.error e

/-- Pure version of create_course. -/
def create_courseP (db : DB) (course_name : Str) : DB :=
  (ensureP db (strip course_name)).2

/-- Model of rename_course (src/db.py lines 137-138). -/
def rename_course (db : DB) (course_id : Nat) (new_name : Str) : DB :=
  { db with courses := db.courses.map (fun r =>
      if r.cid = course_id then { r with name := strip new_name } else r) }

/-- Model of delete_course (src/db.py lines 141-142); enrollment rows
referencing the course are removed by the store's cascade (spec §8). -/
def delete_course (db : DB) (course_id : Nat) : DB :=
  { db with courses := db.courses.filter (fun r => r.cid != course_id),
            enroll := db.enroll.filter (fun p => p.2 != course_id) }

/-- Course names reachable from a student via StudentCourse joined to Course:
one name per (enrollment row, matching course row) pair, in table order.
This is the multiset the read query's GROUP_CONCAT aggregates. -/
def reachNames (db : DB) (sid : Nat) : List Str :=
  (db.enroll.filter (fun p => p.1 == sid)).flatMap
    (fun p => (db.courses.filter (fun r => r.cid == p.2)).map (fun r => r.name))

/-- The Courses column computed by the read query (src/db.py lines 78-81):
COALESCE(NULLIF(GROUP_CONCAT(DISTINCT CourseName ORDER BY CourseName
SEPARATOR ', '), ''), d.CourseS).  The aggregate deduplicates names
case-insensitively and orders them by name (spec §4.5); an empty aggregate
falls back to the legacy CourseS field (NULL when no details row exists). -/
def coursesAgg (db : DB) (sid : Nat) : Option Str :=
  let g := joinSep commaSpace (List.insertionSort keyLe (ciDedup (reachNames db sid) []))
  if g = [] then (db.details.find? (fun d => d.sid == sid)).map (fun d => d.courseS)
  else some g

/-- One aggregated row returned by list_students. -/
structure StudentOut where
  sid : Nat
  name : Str
  age : Int
  email : Str
  phone : Option Str
  courses : Option Str
deriving DecidableEq

/-- The aggregated row for one student (the GROUP BY collapses to one row per
student under the primary keys of Student and StudentDetails). -/
def student_row_out (db : DB) (s : StudentRow) : StudentOut :=
  { sid := s.sid, name := s.name, age := s.age, email := s.email,
    phone := (db.details.find? (fun d => d.sid == s.sid)).map (fun d => d.phone),
    courses := coursesAgg db s.sid }

/-- Model of list_students (src/db.py lines 64-91): optional StudentID filter,
aggregation per student, ordered by descending StudentID. -/
def list_students (db : DB) (student_id : Option Nat) : List StudentOut :=
  (List.insertionSort (fun a b : StudentRow => b.sid ≤ a.sid)
    (match student_id with
     | some sid => db.students.filter (fun s => s.sid == sid)
     | none => db.students)).map (student_row_out db)

/-- Model of get_student (src/db.py lines 94-96): first row of the filtered
listing, or None. -/
def get_student (db : DB) (student_id : Nat) : Option StudentOut :=
  (list_students db (some student_id)).head?

/-- One row returned by list_courses. -/
structure CourseOut where
  cid : Nat
  name : Str
  count : Nat
deriving DecidableEq

/-- Model of list_courses (src/db.py lines 118-130): every course with
COUNT(sc.StudentID) over the left-joined enrollment rows, ordered by name. -/
def list_courses (db : DB) : List CourseOut :=
  (List.insertionSort (fun a b : CourseRow => keyLe a.name b.name) db.courses).map
    (fun c => { cid := c.cid, name := c.name,
                count := (db.enroll.filter (fun p => p.2 == c.cid)).length })

/-- Store well-formedness: the key and referential-integrity constraints the
schema declares (spec §6): primary keys of Student and StudentDetails, unique
CourseID and CourseName, unique enrollment pairs, AUTO_INCREMENT counter above
every used CourseID, and enrollment rows referencing existing courses. -/
def WF (db : DB) : Prop :=
  db.students.Pairwise (fun a b => a.sid ≠ b.sid) ∧
  db.details.Pairwise (fun a b => a.sid ≠ b.sid) ∧
  db.courses.Pairwise (fun a b => a.cid ≠ b.cid) ∧
  db.courses.Pairwise (fun a b => a.name ≠ b.name) ∧
  db.enroll.Nodup ∧
  (∀ r ∈ db.courses, r.cid < db.nextCid) ∧
  (∀ p ∈ db.enroll, ∃ r ∈ db.courses, r.cid = p.2)

/-- The legacy-sync condition for one details row (spec §3): either the
student has no enrollment rows (fallback case), or the casefolded course
names reachable via StudentCourse coincide with the casefolded names implied
by the legacy CourseS field. -/
def invEntry (db : DB) (d : DetailsRow) : Prop :=
  db.enroll.filter (fun p => p.1 == d.sid) = [] ∨
  ((∀ k ∈ (reachNames db d.sid).map casefold,
      k ∈ (normalize_courses (some d.courseS)).map casefold) ∧
   (∀ k ∈ (normalize_courses (some d.courseS)).map casefold,
      k ∈ (reachNames db d.sid).map casefold))

/-- The module invariant of spec §3, over every StudentDetails row. -/
def courseInv (db : DB) : Prop :=
  ∀ d ∈ db.details, invEntry db d

instance (db : DB) : Decidable (WF db) := by
  unfold WF; infer_instance

instance (db : DB) (d : DetailsRow) : Decidable (invEntry db d) := by
  unfold invEntry; infer_instance

instance (db : DB) : Decidable (courseInv db) := by
  unfold courseInv; infer_instance

/-- The state-changing public operations of the module (spec §6; the read
operations do not change the store). -/
inductive Op where
  | setCourses (sid : Nat) (csv : Str)
  | upsertDetails (sid : Nat) (phone csv : Str)
  | insertStudent (sid : Nat) (nm : Str) (age : Int) (em ph csv : Str)
  | updateStudent (sid : Nat) (nm : Str) (age : Int) (em : Str)
  | deleteStudent (sid : Nat)
  | createCourse (nm : Str)
  | ensureCourse (nm : Str)
  | renameCourse (cid : Nat) (nm : Str)
  | deleteCourse (cid : Nat)
deriving DecidableEq

/-- Whether an operation is one of the two with the known legacy-field gap
(spec §4.6: rename/delete of a course do not touch legacy CourseS text). -/
def legacyGap : Op → Bool
  | Op.renameCourse _ _ => true
  | Op.deleteCourse _ => true
  | _ => false

/-- Effect of one state-changing public operation on the store. -/
def applyOp : Op → DB → DB
  | Op.setCourses sid csv, db => set_student_coursesP db sid csv
  | Op.upsertDetails sid ph csv, db => upsert_student_detailsP db sid ph csv
  | Op.insertStudent sid nm ag em ph csv, db => insert_studentP db sid nm ag em ph csv
  | Op.updateStudent sid nm ag em, db => update_student db sid nm ag em
  | Op.deleteStudent sid, db => delete_student db sid
  | Op.createCourse nm, db => create_courseP db nm
  | Op.ensureCourse nm, db => (ensureP db nm).2
  | Op.renameCourse cid nm, db => rename_course db cid nm
  | Op.deleteCourse cid, db => delete_course db cid

/-! ### String-level lemmas: strip, splitComma, joinSep, dedupCourses -/

theorem dropWhile_dropWhile (p : Char → Bool) (l : Str) :
    (l.dropWhile p).dropWhile p = l.dropWhile p := by
  induction l with
  | nil => rfl
  | cons a t ih =>
    by_cases h : p a
    · simp [List.dropWhile_cons, h, ih]
    · simp [List.dropWhile_cons, h]

theorem dropWhile_cons_eq_self {p : Char → Bool} {a : Char} {l : Str}
    (h : (a :: l).dropWhile p = a :: l) : p a = false := by
  cases hp : p a with
  | false => rfl
  | true =>
    exfalso
    simp only [List.dropWhile_cons, hp, if_true] at h
    have hlen := (List.dropWhile_sublist (p := p) (l := l)).length_le
    rw [h] at hlen
    simp at hlen

theorem rstrip_is_front (s : Str) : ∃ u, s = rstrip s ++ u := by
  have h : ∃ v, s.reverse = v ++ s.reverse.dropWhile pySpace := by
    induction s.reverse with
    | nil => exact ⟨[], rfl⟩
    | cons a t ih =>
      by_cases hp : pySpace a
      · obtain ⟨v, hv⟩ := ih
        exact ⟨a :: v, by simp [List.dropWhile_cons, hp, ← hv]⟩
      · exact ⟨[], by simp [List.dropWhile_cons, hp]⟩
  obtain ⟨v, hv⟩ := h
  refine ⟨v.reverse, ?_⟩
  have := congrArg List.reverse hv
  simpa [rstrip] using this

theorem mem_rstrip {a : Char} {s : Str} (h : a ∈ rstrip s) : a ∈ s := by
  obtain ⟨u, hu⟩ := rstrip_is_front s
  rw [hu]
  exact List.mem_append_left _ h

theorem mem_lstrip {a : Char} {s : Str} (h : a ∈ lstrip s) : a ∈ s :=
  (List.dropWhile_sublist (l := s) (p := pySpace)).mem h

theorem mem_strip {a : Char} {s : Str} (h : a ∈ strip s) : a ∈ s :=
  mem_lstrip (mem_rstrip h)

theorem lstrip_lstrip (s : Str) : lstrip (lstrip s) = lstrip s :=
  dropWhile_dropWhile pySpace s

theorem rstrip_rstrip (s : Str) : rstrip (rstrip s) = rstrip s := by
  unfold rstrip
  rw [List.reverse_reverse, dropWhile_dropWhile]

theorem lstrip_rstrip_of_lstripped {s : Str} (h : lstrip s = s) :
    lstrip (rstrip s) = rstrip s := by
  cases hr : rstrip s with
  | nil => rfl
  | cons a t =>
    obtain ⟨u, hu⟩ := rstrip_is_front s
    rw [hr] at hu
    have hpa : pySpace a = false := by
      apply dropWhile_cons_eq_self (p := pySpace) (l := t ++ u)
      have : lstrip (a :: (t ++ u)) = a :: (t ++ u) := by
        rw [← List.cons_append, ← hu]; exact h
      simpa [lstrip] using this
    simp [lstrip, List.dropWhile_cons, hpa]

theorem strip_idem (s : Str) : strip (strip s) = strip s := by
  unfold strip
  rw [lstrip_rstrip_of_lstripped (lstrip_lstrip s), rstrip_rstrip]

theorem strip_cons_space {c : Char} (hc : pySpace c = true) (s : Str) :
    strip (c :: s) = strip s := by
  unfold strip lstrip
  rw [List.dropWhile_cons, hc]
  simp

theorem splitComma_ne_nil (s : Str) : splitComma s ≠ [] := by
  induction s with
  | nil => simp [splitComma]
  | cons c rest ih =>
    by_cases hc : c = ','
    · simp [splitComma, hc]
    · simp only [splitComma, hc, if_false]
      cases h : splitComma rest with
      | nil => simp
      | cons t ts => simp

theorem splitComma_no_comma {s : Str} (h : ',' ∉ s) : splitComma s = [s] := by
  induction s with
  | nil => rfl
  | cons c rest ih =>
    have hc : ¬ c = ',' := fun hc => h (hc ▸ List.mem_cons_self c rest)
    have hr : ',' ∉ rest := fun hm => h (List.mem_cons_of_mem c hm)
    simp only [splitComma, hc, if_false, ih hr]

theorem splitComma_append {a : Str} (b : Str) (h : ',' ∉ a) :
    splitComma (a ++ ',' :: b) = a :: splitComma b := by
  induction a with
  | nil => simp [splitComma]
  | cons c a' ih =>
    have hc : ¬ c = ',' := fun hc => h (hc ▸ List.mem_cons_self c a')
    have ha' : ',' ∉ a' := fun hm => h (List.mem_cons_of_mem c hm)
    simp only [List.cons_append, splitComma, hc, if_false, List.append_eq, ih ha']

theorem mem_splitComma_no_comma : ∀ (s : Str) (t : Str), t ∈ splitComma s → ',' ∉ t := by
  intro s
  induction s with
  | nil =>
    intro t ht
    simp [splitComma] at ht
    simp [ht]
  | cons c rest ih =>
    intro t ht
    by_cases hc : c = ','
    · simp only [splitComma, hc, if_true] at ht
      rcases List.mem_cons.mp ht with h | h
      · simp [h]
      · exact ih t h
    · simp only [splitComma, hc, if_false] at ht
      cases hsp : splitComma rest with
      | nil => exact absurd hsp (splitComma_ne_nil rest)
      | cons u us =>
        rw [hsp] at ht
        rcases List.mem_cons.mp ht with h | h
        · subst h
          intro hmem
          rcases List.mem_cons.mp hmem with h' | h'
          · exact hc h'.symm
          · exact ih u (hsp ▸ List.mem_cons_self u us) h'
        · exact ih t (hsp ▸ List.mem_cons_of_mem u h)

theorem dedupCourses_sublist : ∀ (l seen : List Str),
    (dedupCourses l seen).Sublist (l.filter (fun t => t != [])) := by
  intro l
  induction l with
  | nil => intro seen; simp [dedupCourses]
  | cons p rest ih =>
    intro seen
    by_cases hp : p = []
    · simpa [dedupCourses, hp] using ih seen
    · by_cases hs : casefold p ∈ seen
      · simp only [dedupCourses, hp, if_false, hs, if_true]
        have : (p :: rest).filter (fun t => t != []) = p :: rest.filter (fun t => t != []) := by
          simp [List.filter_cons, hp]
        rw [this]
        exact (ih seen).cons p
      · simp only [dedupCourses, hp, if_false, hs, if_true]
        have : (p :: rest).filter (fun t => t != []) = p :: rest.filter (fun t => t != []) := by
          simp [List.filter_cons, hp]
        rw [this]
        exact (ih (casefold p :: seen)).cons₂ p

theorem mem_dedupCourses_keys : ∀ (l seen : List Str) (t : Str), t ∈ l → t ≠ [] →
    casefold t ∈ (dedupCourses l seen).map casefold ∨ casefold t ∈ seen := by
  intro l
  induction l with
  | nil => intro seen t ht; exact absurd ht (List.not_mem_nil t)
  | cons p rest ih =>
    intro seen t ht htne
    by_cases hp : p = []
    · rcases List.mem_cons.mp ht with h | h
      · exact absurd (h.trans hp) htne
      · simpa [dedupCourses, hp] using ih seen t h htne
    · by_cases hs : casefold p ∈ seen
      · simp only [dedupCourses, hp, if_false, hs, if_true]
        rcases List.mem_cons.mp ht with h | h
        · exact Or.inr (h ▸ hs)
        · exact ih seen t h htne
      · simp only [dedupCourses, hp, if_false, hs, if_true]
        rcases List.mem_cons.mp ht with h | h
        · exact Or.inl (by simp [h])
        · rcases ih (casefold p :: seen) t h htne with h' | h'
          · exact Or.inl (by simp [h'])
          · rcases List.mem_cons.mp h' with h'' | h''
            · exact Or.inl (by simp [h''])
            · exact Or.inr h''

theorem dedupCourses_keys_nodup : ∀ (l seen : List Str),
    ((dedupCourses l seen).map casefold).Nodup ∧
    ∀ k ∈ (dedupCourses l seen).map casefold, k ∉ seen := by
  intro l
  induction l with
  | nil => intro seen; simp [dedupCourses]
  | cons p rest ih =>
    intro seen
    by_cases hp : p = []
    · simpa [dedupCourses, hp] using ih seen
    · by_cases hs : casefold p ∈ seen
      · simpa [dedupCourses, hp, hs] using ih seen
      · simp only [dedupCourses, hp, if_false, hs, if_true, List.map_cons]
        obtain ⟨hnd, hnotin⟩ := ih (casefold p :: seen)
        constructor
        · refine List.nodup_cons.mpr ⟨?_, hnd⟩
          intro hmem
          exact hnotin _ hmem (List.mem_cons_self _ _)
        · intro k hk
          rcases List.mem_cons.mp hk with h | h
          · exact h ▸ hs
          · intro hkseen
            exact hnotin k h (List.mem_cons_of_mem _ hkseen)

theorem dedupCourses_pairwise (l seen : List Str) :
    List.Pairwise (fun a b => casefold a ≠ casefold b) (dedupCourses l seen) := by
  have h := (dedupCourses_keys_nodup l seen).1
  exact List.pairwise_map.mp h

theorem dedupCourses_of_clean : ∀ (l seen : List Str), (∀ t ∈ l, t ≠ []) →
    List.Pairwise (fun a b => casefold a ≠ casefold b) l →
    (∀ t ∈ l, casefold t ∉ seen) → dedupCourses l seen = l := by
  intro l
  induction l with
  | nil => intro seen _ _ _; rfl
  | cons p rest ih =>
    intro seen hne hpw hseen
    have hp : ¬ p = [] := hne p (List.mem_cons_self p rest)
    have hs : casefold p ∉ seen := hseen p (List.mem_cons_self p rest)
    simp only [dedupCourses, hp, if_false, hs, if_true]
    congr 1
    apply ih
    · exact fun t ht => hne t (List.mem_cons_of_mem p ht)
    · exact (List.pairwise_cons.mp hpw).2
    · intro t ht
      intro hmem
      rcases List.mem_cons.mp hmem with h | h
      · exact (List.pairwise_cons.mp hpw).1 t ht h.symm
      · exact hseen t (List.mem_cons_of_mem p ht) h

theorem normalize_tokens {o : Option Str} {t : Str} (ht : t ∈ normalize_courses o) :
    t ≠ [] ∧ strip t = t ∧ ',' ∉ t := by
  have hsub := dedupCourses_sublist ((splitComma (o.getD [])).map strip) []
  have htf : t ∈ ((splitComma (o.getD [])).map strip).filter (fun t => t != []) :=
    hsub.mem ht
  obtain ⟨htm, htne⟩ := List.mem_filter.mp htf
  obtain ⟨u, hu, hut⟩ := List.mem_map.mp htm
  refine ⟨by simpa using htne, ?_, ?_⟩
  · rw [← hut]; exact strip_idem u
  · intro hc
    exact mem_splitComma_no_comma _ u hu (mem_strip (hut ▸ hc))

theorem normalize_pairwise (o : Option Str) :
    List.Pairwise (fun a b => casefold a ≠ casefold b) (normalize_courses o) :=
  dedupCourses_pairwise _ []

theorem normalize_nodup (o : Option Str) : (normalize_courses o).Nodup := by
  have h := normalize_pairwise o
  refine h.imp ?_
  intro a b hne heq
  exact hne (congrArg casefold heq)

theorem splitComma_joinSep : ∀ (l : List Str), l ≠ [] → (∀ t ∈ l, ',' ∉ t) →
    (∀ t ∈ l, strip t = t) → (splitComma (joinSep commaSpace l)).map strip = l := by
  intro l
  induction l with
  | nil => intro h; exact absurd rfl h
  | cons x l' ih =>
    intro _ hcomma hstrip
    cases l' with
    | nil =>
      have hx : ',' ∉ x := hcomma x (List.mem_cons_self x [])
      simp [joinSep, splitComma_no_comma hx, hstrip x (List.mem_cons_self x [])]
    | cons y ys =>
      have hx : ',' ∉ x := hcomma x (List.mem_cons_self _ _)
      have hjoin : joinSep commaSpace (x :: y :: ys) =
          x ++ ',' :: ' ' :: joinSep commaSpace (y :: ys) := by
        show x ++ commaSpace ++ joinSep commaSpace (y :: ys) = _
        rw [List.append_assoc]
        rfl
      rw [hjoin, splitComma_append _ hx]
      have ihres : (splitComma (joinSep commaSpace (y :: ys))).map strip = y :: ys := by
        apply ih (by simp)
        · exact fun t ht => hcomma t (List.mem_cons_of_mem x ht)
        · exact fun t ht => hstrip t (List.mem_cons_of_mem x ht)
      obtain ⟨h, ts, hsp⟩ : ∃ h ts, splitComma (joinSep commaSpace (y :: ys)) = h :: ts := by
        cases hc : splitComma (joinSep commaSpace (y :: ys)) with
        | nil => exact absurd hc (splitComma_ne_nil _)
        | cons a b => exact ⟨a, b, rfl⟩
      have hsp2 : splitComma (' ' :: joinSep commaSpace (y :: ys)) = (' ' :: h) :: ts := by
        show (if (' ' : Char) = ',' then _ else _) = _
        rw [if_neg (by decide)]
        rw [hsp]
      rw [hsp2]
      rw [hsp] at ihres
      simp only [List.map_cons] at ihres ⊢
      rw [strip_cons_space (by decide)]
      rw [hstrip x (List.mem_cons_self _ _)]
      rw [ihres]

theorem normalize_roundtrip (x : Option Str) :
    normalize_courses (some (joinSep commaSpace (normalize_courses x))) = normalize_courses x := by
  cases hl : normalize_courses x with
  | nil =>
    show normalize_courses (some (joinSep commaSpace [])) = []
    rfl
  | cons a l' =>
    rw [← hl]
    have hne : normalize_courses x ≠ [] := by rw [hl]; simp
    have hcomma : ∀ t ∈ normalize_courses x, ',' ∉ t := fun t ht => (normalize_tokens ht).2.2
    have hstrip : ∀ t ∈ normalize_courses x, strip t = t := fun t ht => (normalize_tokens ht).2.1
    have hnonempty : ∀ t ∈ normalize_courses x, t ≠ [] := fun t ht => (normalize_tokens ht).1
    show dedupCourses ((splitComma (joinSep commaSpace (normalize_courses x))).map strip) [] =
      normalize_courses x
    rw [splitComma_joinSep _ hne hcomma hstrip]
    exact dedupCourses_of_clean _ [] hnonempty (normalize_pairwise x) (by simp)

/-! ### Claims C3, C8: the normalizer -/

/-- C3: for every input (including empty and null), _normalize_courses returns
the trimmed tokens with empty tokens dropped and case-insensitive duplicates
removed, preserving first-seen casing and order (the output is a sublist of
the trimmed token list, so casing and relative order are those of the input);
"Math, math, MATH" normalizes to ["Math"] and "Math, , Art" to
["Math", "Art"].  The model is a pure function. -/
theorem C3_normalize_courses_spec :
    normalize_courses (some ("Math, math, MATH".data)) = [("Math".data)] ∧
    normalize_courses (some ("Math, , Art".data)) = [("Math".data), ("Art".data)] ∧
    normalize_courses none = [] ∧
    normalize_courses (some []) = [] ∧
    (∀ o : Option Str, List.Pairwise (fun a b => casefold a ≠ casefold b) (normalize_courses o)) ∧
    (∀ o : Option Str, (normalize_courses o).Sublist
      (((splitComma (o.getD [])).map strip).filter (fun t => t != []))) ∧
    (∀ o : Option Str, ∀ t ∈ (splitComma (o.getD [])).map strip, t ≠ [] →
      casefold t ∈ (normalize_courses o).map casefold) := by
  refine ⟨by decide, by decide, rfl, rfl, normalize_pairwise, ?_, ?_⟩
  · exact fun o => dedupCourses_sublist _ []
  · intro o t ht htne
    exact (mem_dedupCourses_keys _ [] t ht htne).resolve_right (by simp)

/-- Witness for C3: a dropped case-variant token is still covered by the
output under case folding. -/
theorem C3_witness :
    casefold ("MATH".data) ∈ (normalize_courses (some ("Math, math, MATH".data))).map casefold :=
  C3_normalize_courses_spec.2.2.2.2.2.2 (some ("Math, math, MATH".data)) ("MATH".data)
    (by decide) (by decide)

/-- C8: for every CSV input (null included), normalizing the comma-joined
rendering of the normalized list gives the normalized list back. -/
theorem C8_normalize_idempotent (x : Option Str) :
    normalize_courses (some (joinSep commaSpace (normalize_courses x))) = normalize_courses x :=
  normalize_roundtrip x

/-! ### Claim C5: ensure_course -/

theorem insert_ignore_course_pos {db : DB} {name : Str}
    (h : db.courses.any (fun r => r.name == name) = true) :
    insert_ignore_course db name = db := by
  unfold insert_ignore_course
  rw [if_pos h]

theorem insert_ignore_course_neg {db : DB} {name : Str}
    (h : ¬ db.courses.any (fun r => r.name == name) = true) :
    insert_ignore_course db name =
      { db with courses := db.courses ++ [{ cid := db.nextCid, name := name }],
                nextCid := db.nextCid + 1 } := by
  unfold insert_ignore_course
  rw [if_neg h]

theorem find_insert_ignore_course (db : DB) (name : Str) :
    ∃ r, find_course (insert_ignore_course db name) name = some r ∧ r.name = name := by
  by_cases h : db.courses.any (fun r => r.name == name) = true
  · rw [insert_ignore_course_pos h]
    obtain ⟨r, hr, hrn⟩ := List.any_eq_true.mp h
    have hsome : (db.courses.find? (fun r => r.name == name)).isSome :=
      List.find?_isSome.mpr ⟨r, hr, hrn⟩
    obtain ⟨r', hr'⟩ := Option.isSome_iff_exists.mp hsome
    refine ⟨r', hr', ?_⟩
    have := List.find?_some hr'
    simpa using this
  · rw [insert_ignore_course_neg h]
    have hnone : db.courses.find? (fun r => r.name == name) = none := by
      rw [List.find?_eq_none]
      intro a ha
      by_contra hpa
      exact h (List.any_eq_true.mpr ⟨a, ha, by simpa using hpa⟩)
    refine ⟨{ cid := db.nextCid, name := name }, ?_, rfl⟩
    show List.find? (fun r => r.name == name)
      (db.courses ++ [{ cid := db.nextCid, name := name }]) = _
    rw [List.find?_append, hnone]
    simp [List.find?_cons]

/-- C5: ensure_course fails exactly when the lookup performed after the
insert-or-ignore finds no row; since the insert-or-ignore guarantees a row
with the requested name exists, the error branch is unreachable and the
identifier of the found course row is returned. -/
theorem C5_ensure_course_spec (db : DB) (name : Str) :
    ((∃ e, ensure_course db name = Except.error e) ↔
      find_course (insert_ignore_course db name) name = none) ∧
    ∃ r, find_course (insert_ignore_course db name) name = some r ∧ r.name = name ∧
      ensure_course db name = Except.ok (r.cid, insert_ignore_course db name) := by
  constructor
  · constructor
    · rintro ⟨e, he⟩
      cases hf : find_course (insert_ignore_course db name) name with
      | none => rfl
      | some r =>
        unfold ensure_course at he
        rw [hf] at he
        cases he
    · intro hnone
      refine ⟨"Failed to create/find course.", ?_⟩
      unfold ensure_course
      rw [hnone]
  · obtain ⟨r, hfind, hname⟩ := find_insert_ignore_course db name
    refine ⟨r, hfind, hname, ?_⟩
    unfold ensure_course
    rw [hfind]

/-! ### Generic list helpers for key-unique rows -/

theorem pairwise_inj_on {α β : Type} {f : α → β} {l : List α}
    (h : List.Pairwise (fun a b => f a ≠ f b) l) :
    ∀ a ∈ l, ∀ b ∈ l, f a = f b → a = b := by
  induction l with
  | nil => intro a ha; exact absurd ha (List.not_mem_nil a)
  | cons x t ih =>
    intro a ha b hb hab
    obtain ⟨hx, ht⟩ := List.pairwise_cons.mp h
    rcases List.mem_cons.mp ha with rfl | ha' <;> rcases List.mem_cons.mp hb with rfl | hb'
    · rfl
    · exact absurd hab (hx b hb')
    · exact absurd hab.symm (hx a ha')
    · exact ih ht a ha' b hb' hab

theorem find?_eq_of_unique {α : Type} {p : α → Bool} {l : List α} {r : α}
    (hu : ∀ a ∈ l, ∀ b ∈ l, p a = true → p b = true → a = b)
    (hr : r ∈ l) (hp : p r = true) : l.find? p = some r := by
  induction l with
  | nil => exact absurd hr (List.not_mem_nil r)
  | cons x t ih =>
    rw [List.find?_cons]
    cases hx : p x with
    | true =>
      have : x = r := hu x (List.mem_cons_self x t) r hr hx hp
      simp [this]
    | false =>
      have hrt : r ∈ t := by
        rcases List.mem_cons.mp hr with rfl | h
        · rw [hx] at hp; cases hp
        · exact h
      exact ih (fun a ha b hb => hu a (List.mem_cons_of_mem x ha) b (List.mem_cons_of_mem x hb))
        hrt

theorem filter_key_unique {α : Type} {key : α → Nat} {l : List α} {r : α}
    (h : List.Pairwise (fun a b => key a ≠ key b) l) (hr : r ∈ l) :
    l.filter (fun a => key a == key r) = [r] := by
  induction l with
  | nil => exact absurd hr (List.not_mem_nil r)
  | cons x t ih =>
    obtain ⟨hx, ht⟩ := List.pairwise_cons.mp h
    rcases List.mem_cons.mp hr with rfl | hrt
    · rw [List.filter_cons]
      simp only [beq_self_eq_true, if_true]
      have hnil : t.filter (fun a => key a == key r) = [] := by
        rw [List.filter_eq_nil_iff]
        intro a ha
        simp only [beq_iff_eq]
        exact fun hk => hx a ha hk.symm
      rw [hnil]
    · rw [List.filter_cons]
      have hxr : (key x == key r) = false := by
        simp only [beq_eq_false_iff_ne, ne_eq]
        exact hx r hrt
      rw [hxr]
      simp only [Bool.false_eq_true, if_false]
      exact ih ht hrt

theorem filter_key_le_one {α : Type} {key : α → Nat} {l : List α} {k : Nat}
    (h : List.Pairwise (fun a b => key a ≠ key b) l) :
    (l.filter (fun a => key a == k)).length ≤ 1 := by
  induction l with
  | nil => simp
  | cons x t ih =>
    obtain ⟨hx, ht⟩ := List.pairwise_cons.mp h
    rw [List.filter_cons]
    cases hk : (key x == k) with
    | false => simpa using ih ht
    | true =>
      simp only [if_true]
      have : t.filter (fun a => key a == k) = [] := by
        rw [List.filter_eq_nil_iff]
        intro a ha
        simp only [beq_iff_eq]
        intro hak
        exact hx a ha (by rw [hak, ← beq_iff_eq.mp hk])
      simp [this]

theorem find?_map_key {α : Type} {l : List α} {f : α → α} {p : α → Bool}
    (hp : ∀ a, p (f a) = p a) :
    (l.map f).find? p = (l.find? p).map f := by
  induction l with
  | nil => rfl
  | cons x t ih =>
    rw [List.map_cons, List.find?_cons, List.find?_cons, hp x]
    cases hx : p x with
    | true => rfl
    | false => exact ih

/-! ### Facts about the primitive store operations -/

theorem insert_ignore_course_facts (db : DB) (c : Str) :
    (insert_ignore_course db c).students = db.students ∧
    (insert_ignore_course db c).details = db.details ∧
    (insert_ignore_course db c).enroll = db.enroll ∧
    db.nextCid ≤ (insert_ignore_course db c).nextCid ∧
    ∃ ext, (insert_ignore_course db c).courses = db.courses ++ ext ∧
      ∀ r ∈ ext, db.nextCid ≤ r.cid := by
  by_cases h : db.courses.any (fun r => r.name == c) = true
  · rw [insert_ignore_course_pos h]
    exact ⟨rfl, rfl, rfl, le_refl _, [], by simp, by simp⟩
  · rw [insert_ignore_course_neg h]
    refine ⟨rfl, rfl, rfl, Nat.le_succ _, [{ cid := db.nextCid, name := c }], rfl, ?_⟩
    intro r hr
    rcases List.mem_cons.mp hr with rfl | h'
    · exact le_refl _
    · exact absurd h' (List.not_mem_nil r)

theorem WF_insert_ignore_course {db : DB} (hwf : WF db) (c : Str) :
    WF (insert_ignore_course db c) := by
  obtain ⟨hs, hd, hc, hn, he, hb, hfk⟩ := hwf
  by_cases h : db.courses.any (fun r => r.name == c) = true
  · rw [insert_ignore_course_pos h]; exact ⟨hs, hd, hc, hn, he, hb, hfk⟩
  · rw [insert_ignore_course_neg h]
    have hnotname : ∀ r ∈ db.courses, r.name ≠ c := by
      intro r hr hname
      exact h (List.any_eq_true.mpr ⟨r, hr, by simp [hname]⟩)
    refine ⟨hs, hd, ?_, ?_, he, ?_, ?_⟩
    · rw [List.pairwise_append]
      refine ⟨hc, by simp, ?_⟩
      intro a ha b hb'
      rcases List.mem_cons.mp hb' with rfl | h'
      · exact Nat.ne_of_lt (hb a ha)
      · exact absurd h' (List.not_mem_nil b)
    · rw [List.pairwise_append]
      refine ⟨hn, by simp, ?_⟩
      intro a ha b hb'
      rcases List.mem_cons.mp hb' with rfl | h'
      · exact hnotname a ha
      · exact absurd h' (List.not_mem_nil b)
    · intro r hr
      rcases List.mem_append.mp hr with h' | h'
      · exact Nat.lt_succ_of_lt (hb r h')
      · rcases List.mem_cons.mp h' with rfl | h''
        · exact Nat.lt_succ_self _
        · exact absurd h'' (List.not_mem_nil r)
    · intro p hp
      obtain ⟨r, hr, hcid⟩ := hfk p hp
      exact ⟨r, List.mem_append_left _ hr, hcid⟩

theorem insert_ignore_enrollment_facts (db : DB) (sid cid : Nat) :
    (insert_ignore_enrollment db sid cid).students = db.students ∧
    (insert_ignore_enrollment db sid cid).details = db.details ∧
    (insert_ignore_enrollment db sid cid).courses = db.courses ∧
    (insert_ignore_enrollment db sid cid).nextCid = db.nextCid := by
  unfold insert_ignore_enrollment
  split <;> exact ⟨rfl, rfl, rfl, rfl⟩

theorem insert_ignore_enrollment_new {db : DB} {sid cid : Nat}
    (h : (sid, cid) ∉ db.enroll) :
    (insert_ignore_enrollment db sid cid).enroll = db.enroll ++ [(sid, cid)] := by
  unfold insert_ignore_enrollment
  rw [if_neg h]

theorem WF_insert_ignore_enrollment {db : DB} {sid cid : Nat} (hwf : WF db)
    (hex : ∃ r ∈ db.courses, r.cid = cid) :
    WF (insert_ignore_enrollment db sid cid) := by
  obtain ⟨hs, hd, hc, hn, he, hb, hfk⟩ := hwf
  unfold insert_ignore_enrollment
  by_cases h : (sid, cid) ∈ db.enroll
  · rw [if_pos h]; exact ⟨hs, hd, hc, hn, he, hb, hfk⟩
  · rw [if_neg h]
    refine ⟨hs, hd, hc, hn, ?_, hb, ?_⟩
    · rw [List.nodup_append]
      exact ⟨he, by simp, by intro a ha hmem; rcases List.mem_cons.mp hmem with rfl | h'
                             exacts [h ha, absurd h' (List.not_mem_nil a)]⟩
    · intro p hp
      rcases List.mem_append.mp hp with h' | h'
      · exact hfk p h'
      · rcases List.mem_cons.mp h' with rfl | h''
        · exact hex
        · exact absurd h'' (List.not_mem_nil p)

theorem ensure_course_eq_ensureP (db : DB) (c : Str) :
    ensure_course db c = Except.ok (ensureP db c) := by
  obtain ⟨r, hf, _⟩ := find_insert_ignore_course db c
  unfold ensure_course
  rw [hf]
  unfold ensureP cidOf
  unfold find_course at hf
  rw [hf]
  rfl

theorem cidOf_eq {courses : List CourseRow} {r : CourseRow} {c : Str}
    (hpw : List.Pairwise (fun a b => a.name ≠ b.name) courses)
    (hr : r ∈ courses) (hname : r.name = c) : cidOf courses c = r.cid := by
  have hfind : courses.find? (fun a => a.name == c) = some r := by
    apply find?_eq_of_unique
    · intro a ha b hb hpa hpb
      apply pairwise_inj_on hpw a ha b hb
      rw [beq_iff_eq.mp hpa, beq_iff_eq.mp hpb]
    · exact hr
    · simp [hname]
  unfold cidOf
  rw [hfind]
  rfl

theorem ensureP_spec {db : DB} (hwf : WF db) (c : Str) :
    WF (ensureP db c).2 ∧
    (ensureP db c).2 = insert_ignore_course db c ∧
    (∃ r ∈ (ensureP db c).2.courses, r.name = c ∧ r.cid = (ensureP db c).1) := by
  refine ⟨WF_insert_ignore_course hwf c, rfl, ?_⟩
  obtain ⟨r, hf, hname⟩ := find_insert_ignore_course db c
  unfold find_course at hf
  refine ⟨r, List.mem_of_find?_eq_some hf, hname, ?_⟩
  show r.cid = cidOf (insert_ignore_course db c).courses c
  unfold cidOf
  rw [hf]
  rfl

theorem enroll_loopE_eq (sid : Nat) : ∀ (cs : List Str) (db : DB),
    enroll_loopE sid cs db = Except.ok (enroll_loop sid cs db) := by
  intro cs
  induction cs with
  | nil => intro db; rfl
  | cons c rest ih =>
    intro db
    show (match ensure_course db c with
      | Except.error e => Except.error e
      | Except.ok (cid, db1) => enroll_loopE sid rest (insert_ignore_enrollment db1 sid cid)) = _
    rw [ensure_course_eq_ensureP]
    exact ih _

theorem set_student_courses_eq (db : DB) (sid : Nat) (csv : Str) :
    set_student_courses db sid csv = Except.ok (set_student_coursesP db sid csv) := by
  unfold set_student_courses set_student_coursesP
  rw [enroll_loopE_eq]

theorem upsert_student_details_eq (db : DB) (sid : Nat) (ph csv : Str) :
    upsert_student_details db sid ph csv = Except.ok (upsert_student_detailsP db sid ph csv) :=
  set_student_courses_eq _ _ _

theorem insert_student_eq_ok {db : DB} {sid : Nat} {nm : Str} {ag : Int} {em ph csv : Str}
    (h : ¬ db.students.any (fun s => s.sid == sid) = true) :
    insert_student db sid nm ag em ph csv =
      Except.ok (insert_studentP db sid nm ag em ph csv) := by
  unfold insert_student insert_studentP
  rw [if_neg h, if_neg h]
  exact upsert_student_details_eq _ _ _ _

theorem WF_delete_enrollments {db : DB} (hwf : WF db) (sid : Nat) :
    WF (delete_enrollments db sid) := by
  obtain ⟨hs, hd, hc, hn, he, hb, hfk⟩ := hwf
  refine ⟨hs, hd, hc, hn, ?_, hb, ?_⟩
  · exact (List.filter_sublist _).nodup he
  · intro p hp
    exact hfk p (List.mem_of_mem_filter hp)

theorem update_legacy_sid_pres (sid : Nat) (cs : Str) (d : DetailsRow) :
    ((if d.sid = sid then { d with courseS := cs } else d) : DetailsRow).sid = d.sid := by
  split <;> rfl

theorem WF_update_legacy {db : DB} (hwf : WF db) (sid : Nat) (cs : Str) :
    WF (update_legacy db sid cs) := by
  obtain ⟨hs, hd, hc, hn, he, hb, hfk⟩ := hwf
  refine ⟨hs, ?_, hc, hn, he, hb, hfk⟩
  show List.Pairwise _ (db.details.map _)
  rw [List.pairwise_map]
  refine hd.imp ?_
  intro a b hne
  rw [update_legacy_sid_pres, update_legacy_sid_pres]
  exact hne

theorem reachNames_congr {db db' : DB} (sid : Nat)
    (he : db'.enroll.filter (fun p => p.1 == sid) = db.enroll.filter (fun p => p.1 == sid))
    (hc : ∀ p ∈ db.enroll.filter (fun p => p.1 == sid),
      db'.courses.filter (fun r => r.cid == p.2) = db.courses.filter (fun r => r.cid == p.2)) :
    reachNames db' sid = reachNames db sid := by
  unfold reachNames
  rw [he]
  exact List.flatMap_congr (fun p hp => by rw [hc p hp])

theorem filter_cid_extend {courses ext : List CourseRow} {n cid : Nat}
    (_hb : ∀ r ∈ courses, r.cid < n) (hext : ∀ r ∈ ext, n ≤ r.cid) (hcid : cid < n) :
    (courses ++ ext).filter (fun r => r.cid == cid) = courses.filter (fun r => r.cid == cid) := by
  rw [List.filter_append]
  have hnil : ext.filter (fun r => r.cid == cid) = [] := by
    rw [List.filter_eq_nil_iff]
    intro r hr
    simp only [beq_iff_eq]
    intro hrc
    exact absurd (hrc ▸ hext r hr) (Nat.not_le_of_lt hcid)
  rw [hnil, List.append_nil]

theorem reachNames_extend {db db' : DB} (sid : Nat)
    (he : db'.enroll.filter (fun p => p.1 == sid) = db.enroll.filter (fun p => p.1 == sid))
    (hcs : ∃ ext, db'.courses = db.courses ++ ext ∧ ∀ r ∈ ext, db.nextCid ≤ r.cid)
    (hfk : ∀ p ∈ db.enroll, ∃ r ∈ db.courses, r.cid = p.2)
    (hb : ∀ r ∈ db.courses, r.cid < db.nextCid) :
    reachNames db' sid = reachNames db sid := by
  obtain ⟨ext, hext, hbnd⟩ := hcs
  apply reachNames_congr sid he
  intro p hp
  have hpm : p ∈ db.enroll := List.mem_of_mem_filter hp
  obtain ⟨r, hr, hrc⟩ := hfk p hpm
  rw [hext]
  exact filter_cid_extend hb hbnd (hrc ▸ hb r hr)

theorem enroll_loop_spec (sid : Nat) : ∀ (cs : List Str) (db : DB), WF db → cs.Nodup →
    (∀ p ∈ db.enroll, p.1 = sid → ∀ r ∈ db.courses, r.cid = p.2 → r.name ∉ cs) →
    WF (enroll_loop sid cs db) ∧
    (enroll_loop sid cs db).students = db.students ∧
    (enroll_loop sid cs db).details = db.details ∧
    db.nextCid ≤ (enroll_loop sid cs db).nextCid ∧
    (∃ ext, (enroll_loop sid cs db).courses = db.courses ++ ext ∧
      ∀ r ∈ ext, db.nextCid ≤ r.cid) ∧
    (∀ c ∈ cs, ∃ r ∈ (enroll_loop sid cs db).courses, r.name = c) ∧
    (enroll_loop sid cs db).enroll =
      db.enroll ++ cs.map (fun c => (sid, cidOf (enroll_loop sid cs db).courses c)) := by
  intro cs
  induction cs with
  | nil =>
    intro db hwf _ _
    exact ⟨hwf, rfl, rfl, le_refl _, ⟨[], by simp [enroll_loop], by simp⟩, by simp,
      by simp [enroll_loop]⟩
  | cons c rest ih =>
    intro db hwf hnd hpre
    obtain ⟨hs, hd, hcpw, hnpw, hen, hbd, hfk⟩ := hwf
    have hwf' : WF db := ⟨hs, hd, hcpw, hnpw, hen, hbd, hfk⟩
    have hwf1 : WF (insert_ignore_course db c) := WF_insert_ignore_course hwf' c
    obtain ⟨hst1, hdt1, hen1, hnx1, ext1, hext1, hbnd1⟩ := insert_ignore_course_facts db c
    obtain ⟨r, hfind, hrname⟩ := find_insert_ignore_course db c
    have hrmem : r ∈ (insert_ignore_course db c).courses := by
      apply List.mem_of_find?_eq_some (p := fun a => a.name == c)
      unfold find_course at hfind
      exact hfind
    have hrcid : cidOf (insert_ignore_course db c).courses c = r.cid := by
      unfold cidOf
      unfold find_course at hfind
      rw [hfind]
      rfl
    obtain ⟨hndhead, hndrest⟩ := List.nodup_cons.mp hnd
    have hnotmem : (sid, cidOf (insert_ignore_course db c).courses c) ∉
        (insert_ignore_course db c).enroll := by
      rw [hen1, hrcid]
      intro hmem
      obtain ⟨r', hr', hr'cid⟩ := hfk (sid, r.cid) hmem
      have hr'mem1 : r' ∈ (insert_ignore_course db c).courses := by
        rw [hext1]
        exact List.mem_append_left _ hr'
      have hr'r : r' = r := pairwise_inj_on hwf1.2.2.1 r' hr'mem1 r hrmem hr'cid
      have hname' : r'.name ∉ c :: rest := hpre (sid, r.cid) hmem rfl r' hr' hr'cid
      rw [hr'r, hrname] at hname'
      exact hname' (List.mem_cons_self c rest)
    have hwf2 : WF (insert_ignore_enrollment (insert_ignore_course db c) sid
        (cidOf (insert_ignore_course db c).courses c)) :=
      WF_insert_ignore_enrollment hwf1 ⟨r, hrmem, hrcid.symm⟩
    obtain ⟨hst2, hdt2, hcs2, hnx2⟩ := insert_ignore_enrollment_facts
      (insert_ignore_course db c) sid (cidOf (insert_ignore_course db c).courses c)
    have hen2 : (insert_ignore_enrollment (insert_ignore_course db c) sid
        (cidOf (insert_ignore_course db c).courses c)).enroll =
        db.enroll ++ [(sid, cidOf (insert_ignore_course db c).courses c)] := by
      rw [insert_ignore_enrollment_new hnotmem, hen1]
    have hpre2 : ∀ p ∈ (insert_ignore_enrollment (insert_ignore_course db c) sid
        (cidOf (insert_ignore_course db c).courses c)).enroll, p.1 = sid →
        ∀ r'' ∈ (insert_ignore_enrollment (insert_ignore_course db c) sid
          (cidOf (insert_ignore_course db c).courses c)).courses,
          r''.cid = p.2 → r''.name ∉ rest := by
      intro p hp hp1 r'' hr'' hr''cid
      rw [hcs2] at hr''
      rw [hen2] at hp
      rcases List.mem_append.mp hp with hold | hnew
      · obtain ⟨r0, hr0, hr0cid⟩ := hfk p hold
        have hp2lt : p.2 < db.nextCid := hr0cid ▸ hbd r0 hr0
        have hr''db : r'' ∈ db.courses := by
          rw [hext1] at hr''
          rcases List.mem_append.mp hr'' with h' | h'
          · exact h'
          · exact absurd (hr''cid ▸ hbnd1 r'' h') (Nat.not_le_of_lt hp2lt)
        intro hrest
        exact hpre p hold hp1 r'' hr''db hr''cid (List.mem_cons_of_mem c hrest)
      · have hpp : p = (sid, cidOf (insert_ignore_course db c).courses c) := by
          simpa using hnew
        have hr''r : r'' = r := by
          apply pairwise_inj_on hwf1.2.2.1 r'' hr'' r hrmem
          rw [hr''cid, hpp, hrcid]
        rw [hr''r, hrname]
        exact hndhead
    obtain ⟨Lwf, Lst, Ldt, Lnx, ⟨ext2, hext2, hbnd2⟩, Lcover, Lenroll⟩ :=
      ih _ hwf2 hndrest hpre2
    have hloopeq : enroll_loop sid (c :: rest) db =
        enroll_loop sid rest (insert_ignore_enrollment (insert_ignore_course db c) sid
          (cidOf (insert_ignore_course db c).courses c)) := rfl
    rw [hloopeq]
    have hrmemL : r ∈ (enroll_loop sid rest (insert_ignore_enrollment
        (insert_ignore_course db c) sid (cidOf (insert_ignore_course db c).courses c))).courses := by
      rw [hext2, hcs2]
      exact List.mem_append_left _ hrmem
    have hcidL : cidOf (enroll_loop sid rest (insert_ignore_enrollment
        (insert_ignore_course db c) sid
        (cidOf (insert_ignore_course db c).courses c))).courses c = r.cid :=
      cidOf_eq Lwf.2.2.2.1 hrmemL hrname
    refine ⟨Lwf, ?_, ?_, ?_, ?_, ?_, ?_⟩
    · rw [Lst, hst2, hst1]
    · rw [Ldt, hdt2, hdt1]
    · calc db.nextCid ≤ (insert_ignore_course db c).nextCid := hnx1
        _ = _ := hnx2.symm
        _ ≤ _ := Lnx
    · refine ⟨ext1 ++ ext2, ?_, ?_⟩
      · rw [hext2, hcs2, hext1, List.append_assoc]
      · intro r' hr'
        rcases List.mem_append.mp hr' with h' | h'
        · exact hbnd1 r' h'
        · calc db.nextCid ≤ (insert_ignore_course db c).nextCid := hnx1
            _ = _ := hnx2.symm
            _ ≤ r'.cid := hbnd2 r' h'
    · intro c' hc'
      rcases List.mem_cons.mp hc' with rfl | h'
      · exact ⟨r, hrmemL, hrname⟩
      · exact Lcover c' h'
    · rw [Lenroll, hen2, List.map_cons, hcidL, hrcid, List.append_assoc]
      rfl

theorem filter_bne_idem (l : List (Nat × Nat)) (sid : Nat) :
    (l.filter (fun p => p.1 != sid)).filter (fun p => p.1 != sid) =
      l.filter (fun p => p.1 != sid) := by
  rw [List.filter_filter]
  exact List.filter_congr (fun a _ => Bool.and_self _)

theorem filter_beq_of_filter_bne (l : List (Nat × Nat)) {s sid : Nat} (hne : s ≠ sid) :
    (l.filter (fun p => p.1 != sid)).filter (fun p => p.1 == s) =
      l.filter (fun p => p.1 == s) := by
  rw [List.filter_filter]
  apply List.filter_congr
  intro a _
  cases haeq : (a.1 == s) with
  | false => simp
  | true =>
    have has : a.1 = s := beq_iff_eq.mp haeq
    simp [has, hne]

theorem flatMap_filter_names (courses : List CourseRow) (sid : Nat) :
    ∀ (K : List Str),
    (∀ c ∈ K, (courses.filter (fun r => r.cid == cidOf courses c)).map
      (fun r => r.name) = [c]) →
    (K.map (fun c => (sid, cidOf courses c))).flatMap
      (fun p => (courses.filter (fun r => r.cid == p.2)).map (fun r => r.name)) = K := by
  intro K
  induction K with
  | nil => intro _; rfl
  | cons c rest ihK =>
    intro h
    rw [List.map_cons, List.flatMap_cons]
    rw [h c (List.mem_cons_self c rest),
      ihK (fun c' hc' => h c' (List.mem_cons_of_mem c hc'))]
    rfl

theorem set_student_coursesP_spec (db : DB) (sid : Nat) (csv : Str) (hwf : WF db) :
    WF (set_student_coursesP db sid csv) ∧
    (set_student_coursesP db sid csv).students = db.students ∧
    (set_student_coursesP db sid csv).details =
      db.details.map (fun d => if d.sid = sid then
        { d with courseS := joinSep commaSpace (normalize_courses (some csv)) } else d) ∧
    reachNames (set_student_coursesP db sid csv) sid = normalize_courses (some csv) ∧
    (set_student_coursesP db sid csv).enroll.filter (fun p => p.1 != sid) =
      db.enroll.filter (fun p => p.1 != sid) ∧
    (∀ s, s ≠ sid →
      (set_student_coursesP db sid csv).enroll.filter (fun p => p.1 == s) =
        db.enroll.filter (fun p => p.1 == s) ∧
      reachNames (set_student_coursesP db sid csv) s = reachNames db s) ∧
    (∀ c ∈ normalize_courses (some csv),
      ∃ r ∈ (set_student_coursesP db sid csv).courses, r.name = c) ∧
    (set_student_coursesP db sid csv).enroll =
      db.enroll.filter (fun p => p.1 != sid) ++
        (normalize_courses (some csv)).map
          (fun c => (sid, cidOf (set_student_coursesP db sid csv).courses c)) := by
  have hwfD : WF (delete_enrollments db sid) := WF_delete_enrollments hwf sid
  have hpreD : ∀ p ∈ (delete_enrollments db sid).enroll, p.1 = sid →
      ∀ r ∈ (delete_enrollments db sid).courses, r.cid = p.2 →
        r.name ∉ normalize_courses (some csv) := by
    intro p hp hp1
    exfalso
    have := List.mem_filter.mp hp
    exact bne_iff_ne.mp this.2 hp1
  obtain ⟨Lwf, Lst, Ldt, Lnx, ⟨ext, hext, hbnd⟩, Lcover, Lenroll⟩ :=
    enroll_loop_spec sid (normalize_courses (some csv)) (delete_enrollments db sid)
      hwfD (normalize_nodup _) hpreD
  have hres : set_student_coursesP db sid csv =
      update_legacy (enroll_loop sid (normalize_courses (some csv))
        (delete_enrollments db sid)) sid
        (joinSep commaSpace (normalize_courses (some csv))) := rfl
  have hencur : (set_student_coursesP db sid csv).enroll =
      db.enroll.filter (fun p => p.1 != sid) ++
        (normalize_courses (some csv)).map
          (fun c => (sid, cidOf (set_student_coursesP db sid csv).courses c)) := by
    rw [hres]
    exact Lenroll
  have hcourses_eq : (set_student_coursesP db sid csv).courses = db.courses ++ ext := by
    rw [hres]
    exact hext
  have hfilter_ne : (set_student_coursesP db sid csv).enroll.filter (fun p => p.1 != sid) =
      db.enroll.filter (fun p => p.1 != sid) := by
    rw [hencur, List.filter_append, filter_bne_idem]
    have hmapnil : ((normalize_courses (some csv)).map
        (fun c => (sid, cidOf (set_student_coursesP db sid csv).courses c))).filter
          (fun p => p.1 != sid) = [] := by
      rw [List.filter_eq_nil_iff]
      intro a ha
      obtain ⟨c, _, rfl⟩ := List.mem_map.mp ha
      simp
    rw [hmapnil, List.append_nil]
  have hsingleton : ∀ c ∈ normalize_courses (some csv),
      ((set_student_coursesP db sid csv).courses.filter
        (fun r => r.cid == cidOf (set_student_coursesP db sid csv).courses c)).map
        (fun r => r.name) = [c] := by
    intro c hc
    obtain ⟨r, hrmem, hrname⟩ := Lcover c hc
    have hrmem' : r ∈ (set_student_coursesP db sid csv).courses := hrmem
    have hcid : cidOf (set_student_coursesP db sid csv).courses c = r.cid :=
      cidOf_eq Lwf.2.2.2.1 hrmem' hrname
    rw [hcid]
    have hfil : (set_student_coursesP db sid csv).courses.filter
        (fun r' => r'.cid == r.cid) = [r] :=
      filter_key_unique (l := (set_student_coursesP db sid csv).courses)
        Lwf.2.2.1 hrmem'
    rw [hfil, List.map_cons, List.map_nil, hrname]
  have hreach_sid : reachNames (set_student_coursesP db sid csv) sid =
      normalize_courses (some csv) := by
    unfold reachNames
    have hfe : (set_student_coursesP db sid csv).enroll.filter (fun p => p.1 == sid) =
        (normalize_courses (some csv)).map
          (fun c => (sid, cidOf (set_student_coursesP db sid csv).courses c)) := by
      rw [hencur, List.filter_append]
      have h1 : (db.enroll.filter (fun p => p.1 != sid)).filter (fun p => p.1 == sid) = [] := by
        rw [List.filter_eq_nil_iff]
        intro a ha
        have := bne_iff_ne.mp (List.mem_filter.mp ha).2
        simp [this]
      have h2 : ((normalize_courses (some csv)).map
          (fun c => (sid, cidOf (set_student_coursesP db sid csv).courses c))).filter
            (fun p => p.1 == sid) =
          (normalize_courses (some csv)).map
            (fun c => (sid, cidOf (set_student_coursesP db sid csv).courses c)) := by
        rw [List.filter_eq_self]
        intro a ha
        obtain ⟨c, _, rfl⟩ := List.mem_map.mp ha
        simp
      rw [h1, h2, List.nil_append]
    rw [hfe]
    exact flatMap_filter_names (set_student_coursesP db sid csv).courses sid
      (normalize_courses (some csv)) hsingleton
  refine ⟨?_, ?_, ?_, hreach_sid, hfilter_ne, ?_, ?_, hencur⟩
  · rw [hres]
    exact WF_update_legacy Lwf sid _
  · rw [hres]
    show (enroll_loop sid (normalize_courses (some csv))
      (delete_enrollments db sid)).students = db.students
    rw [Lst]
    rfl
  · rw [hres]
    show (enroll_loop sid (normalize_courses (some csv))
        (delete_enrollments db sid)).details.map _ = _
    rw [Ldt]
    rfl
  · intro s hs
    have hfs : (set_student_coursesP db sid csv).enroll.filter (fun p => p.1 == s) =
        db.enroll.filter (fun p => p.1 == s) := by
      rw [hencur, List.filter_append, filter_beq_of_filter_bne _ hs]
      have hmapnil : ((normalize_courses (some csv)).map
          (fun c => (sid, cidOf (set_student_coursesP db sid csv).courses c))).filter
            (fun p => p.1 == s) = [] := by
        rw [List.filter_eq_nil_iff]
        intro a ha
        obtain ⟨c, _, rfl⟩ := List.mem_map.mp ha
        simp
        exact fun h => hs h.symm
      rw [hmapnil, List.append_nil]
    refine ⟨hfs, ?_⟩
    apply reachNames_extend s hfs ⟨ext, hcourses_eq, ?_⟩ hwf.2.2.2.2.2.2 hwf.2.2.2.2.2.1
    intro r hr
    exact hbnd r hr
  · intro c hc
    exact Lcover c hc

/-! ### Claim C1: set_student_courses performs a full replace -/

/-- C1: set_student_courses normalizes the CSV, removes all enrollment rows of
the student, re-creates one enrollment per normalized course (via
ensure_course and insert-or-ignore), and writes the normalized comma-joined
list into the legacy CourseS field; afterwards the student's reachable course
names are exactly the normalized list, regardless of the prior enrollment
state, and other students' enrollments are untouched. -/
theorem C1_set_student_courses_replace (db : DB) (sid : Nat) (csv : Str) (hwf : WF db) :
    ∃ db', set_student_courses db sid csv = Except.ok db' ∧
      reachNames db' sid = normalize_courses (some csv) ∧
      (∀ d ∈ db'.details, d.sid = sid →
        d.courseS = joinSep commaSpace (normalize_courses (some csv))) ∧
      db'.enroll.filter (fun p => p.1 != sid) = db.enroll.filter (fun p => p.1 != sid) ∧
      db'.students = db.students := by
  obtain ⟨_, hst, hdt, hreach, hfil, _, _, _⟩ := set_student_coursesP_spec db sid csv hwf
  refine ⟨set_student_coursesP db sid csv, set_student_courses_eq db sid csv, hreach,
    ?_, hfil, hst⟩
  intro d hd hdsid
  rw [hdt] at hd
  obtain ⟨d₀, hd₀, hfd⟩ := List.mem_map.mp hd
  by_cases h0 : d₀.sid = sid
  · rw [if_pos h0] at hfd
    rw [← hfd]
  · rw [if_neg h0] at hfd
    rw [← hfd] at hdsid
    exact absurd hdsid h0

/-- Witness for C1 at a concrete store and input. -/
theorem C1_witness :
    ∃ db', set_student_courses emptyDB 1 ("Math, Art".data) = Except.ok db' ∧
      reachNames db' 1 = normalize_courses (some ("Math, Art".data)) ∧
      (∀ d ∈ db'.details, d.sid = 1 →
        d.courseS = joinSep commaSpace (normalize_courses (some ("Math, Art".data)))) ∧
      db'.enroll.filter (fun p => p.1 != 1) = emptyDB.enroll.filter (fun p => p.1 != 1) ∧
      db'.students = emptyDB.students :=
  C1_set_student_courses_replace emptyDB 1 ("Math, Art".data) (by decide)

/-! ### Claim C7: idempotence of the synchronizer -/

theorem DB.ext' {a b : DB} (hs : a.students = b.students) (hd : a.details = b.details)
    (hc : a.courses = b.courses) (he : a.enroll = b.enroll) (hn : a.nextCid = b.nextCid) :
    a = b := by
  cases a
  cases b
  cases hs
  cases hd
  cases hc
  cases he
  cases hn
  rfl

theorem insert_ignore_enrollment_new_eq {db : DB} {sid cid : Nat}
    (h : (sid, cid) ∉ db.enroll) :
    insert_ignore_enrollment db sid cid = { db with enroll := db.enroll ++ [(sid, cid)] } := by
  unfold insert_ignore_enrollment
  rw [if_neg h]

theorem enroll_loop_stable (sid : Nat) : ∀ (cs : List Str) (db : DB), WF db → cs.Nodup →
    (∀ c ∈ cs, ∃ r ∈ db.courses, r.name = c) →
    (∀ p ∈ db.enroll, p.1 = sid → ∀ r ∈ db.courses, r.cid = p.2 → r.name ∉ cs) →
    enroll_loop sid cs db =
      { db with enroll := db.enroll ++ cs.map (fun c => (sid, cidOf db.courses c)) } := by
  intro cs
  induction cs with
  | nil =>
    intro db _ _ _ _
    show db = _
    rw [List.map_nil, List.append_nil]
  | cons c rest ih =>
    intro db hwf hnd hcov hpre
    obtain ⟨hs, hd, hcpw, hnpw, hen, hbd, hfk⟩ := hwf
    obtain ⟨r, hr, hrname⟩ := hcov c (List.mem_cons_self c rest)
    have hany : db.courses.any (fun r' => r'.name == c) = true :=
      List.any_eq_true.mpr ⟨r, hr, by simp [hrname]⟩
    have hdb1 : insert_ignore_course db c = db := insert_ignore_course_pos hany
    have hcid : cidOf db.courses c = r.cid := cidOf_eq hnpw hr hrname
    have hnotmem : (sid, cidOf db.courses c) ∉ db.enroll := by
      rw [hcid]
      intro hmem
      apply hpre (sid, r.cid) hmem rfl r hr rfl
      rw [hrname]
      exact List.mem_cons_self c rest
    have h2 : (ensureP db c).2 = db := by
      unfold ensureP
      rw [hdb1]
    have h1 : (ensureP db c).1 = cidOf db.courses c := by
      unfold ensureP
      rw [hdb1]
    have hstep : enroll_loop sid (c :: rest) db =
        enroll_loop sid rest { db with enroll := db.enroll ++ [(sid, cidOf db.courses c)] } := by
      show enroll_loop sid rest
        (insert_ignore_enrollment (ensureP db c).2 sid (ensureP db c).1) = _
      rw [h2, h1, insert_ignore_enrollment_new_eq hnotmem]
    rw [hstep]
    have hwf2 : WF ({ db with enroll := db.enroll ++ [(sid, cidOf db.courses c)] } : DB) := by
      rw [← insert_ignore_enrollment_new_eq hnotmem]
      exact WF_insert_ignore_enrollment ⟨hs, hd, hcpw, hnpw, hen, hbd, hfk⟩ ⟨r, hr, hcid.symm⟩
    have hcov2 : ∀ c' ∈ rest,
        ∃ r' ∈ ({ db with enroll := db.enroll ++ [(sid, cidOf db.courses c)] } : DB).courses,
          r'.name = c' :=
      fun c' hc' => hcov c' (List.mem_cons_of_mem c hc')
    have hpre2 : ∀ p ∈ ({ db with enroll := db.enroll ++ [(sid, cidOf db.courses c)] } : DB).enroll,
        p.1 = sid →
        ∀ r' ∈ ({ db with enroll := db.enroll ++ [(sid, cidOf db.courses c)] } : DB).courses,
          r'.cid = p.2 → r'.name ∉ rest := by
      intro p hp hp1 r' hr' hr'cid
      rcases List.mem_append.mp hp with hold | hnew
      · intro hin
        exact hpre p hold hp1 r' hr' hr'cid (List.mem_cons_of_mem c hin)
      · have hpp : p = (sid, cidOf db.courses c) := by simpa using hnew
        have hr'r : r' = r := by
          apply pairwise_inj_on hcpw r' hr' r hr
          rw [hr'cid, hpp, hcid]
        rw [hr'r, hrname]
        exact (List.nodup_cons.mp hnd).1
    rw [ih _ hwf2 (List.nodup_cons.mp hnd).2 hcov2 hpre2]
    refine DB.ext' rfl rfl rfl ?_ rfl
    show (db.enroll ++ [(sid, cidOf db.courses c)]) ++
        rest.map (fun c' => (sid, cidOf db.courses c')) =
      db.enroll ++ (c :: rest).map (fun c' => (sid, cidOf db.courses c'))
    rw [List.append_assoc, List.map_cons]
    rfl

theorem set_student_coursesP_idem (db : DB) (sid : Nat) (csv : Str) (hwf : WF db) :
    set_student_coursesP (set_student_coursesP db sid csv) sid csv =
      set_student_coursesP db sid csv := by
  obtain ⟨Awf, Ast, Adt, Areach, Afil, Aoth, Acover, Aen⟩ :=
    set_student_coursesP_spec db sid csv hwf
  generalize hA : set_student_coursesP db sid csv = A at Awf Adt Afil Acover Aen ⊢
  have hdelA : delete_enrollments A sid =
      { A with enroll := db.enroll.filter (fun p => p.1 != sid) } := by
    unfold delete_enrollments
    rw [Afil]
  have hwfDelA : WF (delete_enrollments A sid) := WF_delete_enrollments Awf sid
  have hcovA : ∀ c ∈ normalize_courses (some csv),
      ∃ r ∈ (delete_enrollments A sid).courses, r.name = c :=
    fun c hc => Acover c hc
  have hpreA : ∀ p ∈ (delete_enrollments A sid).enroll, p.1 = sid →
      ∀ r ∈ (delete_enrollments A sid).courses, r.cid = p.2 →
        r.name ∉ normalize_courses (some csv) := by
    intro p hp hp1
    exact absurd hp1 (bne_iff_ne.mp (List.mem_filter.mp hp).2)
  have hstable := enroll_loop_stable sid (normalize_courses (some csv))
    (delete_enrollments A sid) hwfDelA (normalize_nodup _) hcovA hpreA
  show update_legacy (enroll_loop sid (normalize_courses (some csv))
      (delete_enrollments A sid)) sid
      (joinSep commaSpace (normalize_courses (some csv))) = A
  rw [hstable, hdelA]
  refine DB.ext' rfl ?_ rfl ?_ rfl
  · show A.details.map (fun d => if d.sid = sid then
      { d with courseS := joinSep commaSpace (normalize_courses (some csv)) } else d) = A.details
    rw [Adt, List.map_map]
    apply List.map_congr_left
    intro d _
    by_cases h0 : d.sid = sid
    · simp [h0]
    · simp [h0]
  · exact Aen.symm

/-- C7: running set_student_courses twice with the same CSV gives the same
final store as running it once (the second run maps the state to itself). -/
theorem C7_set_student_courses_idempotent (db : DB) (sid : Nat) (csv : Str) (hwf : WF db) :
    ∃ db', set_student_courses db sid csv = Except.ok db' ∧
      set_student_courses db' sid csv = Except.ok db' :=
  ⟨set_student_coursesP db sid csv, set_student_courses_eq db sid csv, by
    rw [set_student_courses_eq, set_student_coursesP_idem db sid csv hwf]⟩

/-- Witness for C7 at a concrete store and input. -/
theorem C7_witness :
    ∃ db', set_student_courses emptyDB 1 ("Math, math".data) = Except.ok db' ∧
      set_student_courses db' 1 ("Math, math".data) = Except.ok db' :=
  C7_set_student_courses_idempotent emptyDB 1 ("Math, math".data) (by decide)

/-! ### Claim C2: the legacy-sync invariant -/

theorem invEntry_congr {db db' : DB} {d : DetailsRow}
    (he : db'.enroll.filter (fun p => p.1 == d.sid) = db.enroll.filter (fun p => p.1 == d.sid))
    (hr : reachNames db' d.sid = reachNames db d.sid)
    (hinv : invEntry db d) : invEntry db' d := by
  unfold invEntry at hinv ⊢
  rw [he, hr]
  exact hinv

theorem courseInv_congr {db db' : DB}
    (hd : db'.details = db.details) (he : db'.enroll = db.enroll)
    (hc : db'.courses = db.courses) (hinv : courseInv db) : courseInv db' := by
  intro d hdm
  rw [hd] at hdm
  have h := hinv d hdm
  unfold invEntry at h ⊢
  unfold reachNames at h ⊢
  rw [he, hc]
  exact h

theorem courseInv_set_student_coursesP {db : DB} (sid : Nat) (csv : Str) (hwf : WF db)
    (hothers : ∀ d ∈ db.details, d.sid ≠ sid → invEntry db d) :
    courseInv (set_student_coursesP db sid csv) := by
  obtain ⟨Awf, Ast, Adt, Areach, Afil, Aoth, Acover, Aen⟩ :=
    set_student_coursesP_spec db sid csv hwf
  intro d hd
  rw [Adt] at hd
  obtain ⟨d₀, hd₀, hfd⟩ := List.mem_map.mp hd
  by_cases h0 : d₀.sid = sid
  · rw [if_pos h0] at hfd
    have hdsid : d.sid = sid := by rw [← hfd]; exact h0
    have hdcs : d.courseS = joinSep commaSpace (normalize_courses (some csv)) := by
      rw [← hfd]
    right
    rw [hdsid, hdcs, Areach, normalize_roundtrip (some csv)]
    exact ⟨fun k hk => hk, fun k hk => hk⟩
  · rw [if_neg h0] at hfd
    subst hfd
    exact invEntry_congr (Aoth d₀.sid h0).1 (Aoth d₀.sid h0).2 (hothers d₀ hd₀ h0)

theorem courseInv_insert_ignore_course {db : DB} (hwf : WF db) (nm : Str)
    (hinv : courseInv db) : courseInv (insert_ignore_course db nm) := by
  obtain ⟨hst, hdt, hen, hnx, ext, hext, hbnd⟩ := insert_ignore_course_facts db nm
  intro d hdm
  rw [hdt] at hdm
  refine invEntry_congr (by rw [hen]) ?_ (hinv d hdm)
  exact reachNames_extend d.sid (by rw [hen]) ⟨ext, hext, hbnd⟩
    hwf.2.2.2.2.2.2 hwf.2.2.2.2.2.1

theorem courseInv_delete_student {db : DB} (sid : Nat) (hinv : courseInv db) :
    courseInv (delete_student db sid) := by
  intro d hdm
  obtain ⟨hdm0, hdne⟩ := List.mem_filter.mp hdm
  have hdsne : d.sid ≠ sid := bne_iff_ne.mp hdne
  refine invEntry_congr ?_ ?_ (hinv d hdm0)
  · exact filter_beq_of_filter_bne db.enroll hdsne
  · apply reachNames_congr d.sid (filter_beq_of_filter_bne db.enroll hdsne)
    intro p _
    rfl

theorem upsert_details_row_facts (db : DB) (sid : Nat) (ph csv : Str) :
    (upsert_details_row db sid ph csv).students = db.students ∧
    (upsert_details_row db sid ph csv).courses = db.courses ∧
    (upsert_details_row db sid ph csv).enroll = db.enroll ∧
    (∀ d ∈ (upsert_details_row db sid ph csv).details, d.sid ≠ sid → d ∈ db.details) := by
  unfold upsert_details_row
  split
  · refine ⟨rfl, rfl, rfl, ?_⟩
    intro d hdm hdne
    obtain ⟨d₀, hd₀, hfd⟩ := List.mem_map.mp hdm
    by_cases h0 : d₀.sid = sid
    · rw [if_pos h0] at hfd
      exfalso
      apply hdne
      rw [← hfd]
      exact h0
    · rw [if_neg h0] at hfd
      rw [← hfd]
      exact hd₀
  · refine ⟨rfl, rfl, rfl, ?_⟩
    intro d hdm hdne
    rcases List.mem_append.mp hdm with h | h
    · exact h
    · exfalso
      rcases List.mem_cons.mp h with rfl | h'
      · exact hdne rfl
      · exact absurd h' (List.not_mem_nil d)

theorem WF_upsert_details_row {db : DB} (hwf : WF db) (sid : Nat) (ph csv : Str) :
    WF (upsert_details_row db sid ph csv) := by
  obtain ⟨hs, hd, hc, hn, he, hb, hfk⟩ := hwf
  unfold upsert_details_row
  split
  · refine ⟨hs, ?_, hc, hn, he, hb, hfk⟩
    rw [List.pairwise_map]
    refine hd.imp ?_
    intro a b hne
    have ha : ((if a.sid = sid then { a with phone := ph, courseS := csv } else a) :
        DetailsRow).sid = a.sid := by split <;> rfl
    have hbb : ((if b.sid = sid then { b with phone := ph, courseS := csv } else b) :
        DetailsRow).sid = b.sid := by split <;> rfl
    rw [ha, hbb]
    exact hne
  · rename_i hany
    refine ⟨hs, ?_, hc, hn, he, hb, hfk⟩
    rw [List.pairwise_append]
    refine ⟨hd, by simp, ?_⟩
    intro a ha b hbm
    rcases List.mem_cons.mp hbm with rfl | h'
    · show a.sid ≠ sid
      intro heq
      exact hany (List.any_eq_true.mpr ⟨a, ha, by simp [heq]⟩)
    · exact absurd h' (List.not_mem_nil b)

theorem courseInv_upsert_detailsP {db : DB} (sid : Nat) (ph csv : Str) (hwf : WF db)
    (hinv : courseInv db) : courseInv (upsert_student_detailsP db sid ph csv) := by
  obtain ⟨hst, hcs, hen, hmem⟩ := upsert_details_row_facts db sid ph csv
  apply courseInv_set_student_coursesP sid csv (WF_upsert_details_row hwf sid ph csv)
  intro d hdm hdne
  have hd0 : d ∈ db.details := hmem d hdm hdne
  refine invEntry_congr (by rw [hen]) ?_ (hinv d hd0)
  unfold reachNames
  rw [hen, hcs]

theorem WF_insert_student_row {db : DB} (hwf : WF db) {sid : Nat} {nm : Str} {ag : Int}
    {em : Str} (hany : ¬ db.students.any (fun s => s.sid == sid) = true) :
    WF { db with students := db.students ++
      [{ sid := sid, name := nm, age := ag, email := em }] } := by
  obtain ⟨hs, hd, hc, hn, he, hb, hfk⟩ := hwf
  refine ⟨?_, hd, hc, hn, he, hb, hfk⟩
  rw [List.pairwise_append]
  refine ⟨hs, by simp, ?_⟩
  intro a ha b hbm
  rcases List.mem_cons.mp hbm with rfl | h'
  · show a.sid ≠ sid
    intro heq
    exact hany (List.any_eq_true.mpr ⟨a, ha, by simp [heq]⟩)
  · exact absurd h' (List.not_mem_nil b)

theorem courseInv_insert_studentP {db : DB} (sid : Nat) (nm : Str) (ag : Int)
    (em ph csv : Str) (hwf : WF db) (hinv : courseInv db) :
    courseInv (insert_studentP db sid nm ag em ph csv) := by
  unfold insert_studentP
  split
  · exact hinv
  · rename_i hany
    apply courseInv_upsert_detailsP sid ph csv (WF_insert_student_row hwf hany)
    exact courseInv_congr rfl rfl rfl hinv

/-- C2 (counterexample): the invariant is not preserved by rename_course.
From the empty store, insert_student enrolls student 1 in Math (a reachable,
well-formed state satisfying the invariant); the public operation
rename_course then renames the course to Art, leaving the legacy CourseS
field saying Math while the non-empty join table reaches Art. -/
theorem C2_counterexample :
    WF (insert_studentP emptyDB 1 ("Alice".data) 20 ("a@x.com".data) ("p".data)
      ("Math".data)) ∧
    courseInv (insert_studentP emptyDB 1 ("Alice".data) 20 ("a@x.com".data) ("p".data)
      ("Math".data)) ∧
    applyOp (Op.renameCourse 1 ("Art".data))
        (insert_studentP emptyDB 1 ("Alice".data) 20 ("a@x.com".data) ("p".data)
          ("Math".data)) =
      rename_course (insert_studentP emptyDB 1 ("Alice".data) 20 ("a@x.com".data)
        ("p".data) ("Math".data)) 1 ("Art".data) ∧
    ¬ courseInv (rename_course (insert_studentP emptyDB 1 ("Alice".data) 20
      ("a@x.com".data) ("p".data) ("Math".data)) 1 ("Art".data)) := by
  exact ⟨by decide, by decide, rfl, by decide⟩

/-- C2 (amended): the legacy-sync invariant of spec §3 is preserved by every
state-changing public operation of the module except rename_course and
delete_course, which leave the legacy CourseS text untouched while changing
the reachable course names (the gap spec §4.6 and §9 acknowledge). -/
theorem C2_invariant_amended (op : Op) (db : DB) (hwf : WF db) (hinv : courseInv db)
    (hop : legacyGap op = false) : courseInv (applyOp op db) := by
  cases op with
  | setCourses sid csv =>
    apply courseInv_set_student_coursesP sid csv hwf
    intro d hdm _
    exact hinv d hdm
  | upsertDetails sid ph csv => exact courseInv_upsert_detailsP sid ph csv hwf hinv
  | insertStudent sid nm ag em ph csv =>
    exact courseInv_insert_studentP sid nm ag em ph csv hwf hinv
  | updateStudent sid nm ag em => exact courseInv_congr rfl rfl rfl hinv
  | deleteStudent sid => exact courseInv_delete_student sid hinv
  | createCourse nm => exact courseInv_insert_ignore_course hwf (strip nm) hinv
  | ensureCourse nm => exact courseInv_insert_ignore_course hwf nm hinv
  | renameCourse cid nm => simp [legacyGap] at hop
  | deleteCourse cid => simp [legacyGap] at hop

/-- Witness for the amended C2 at a concrete operation and store. -/
theorem C2_witness : courseInv (applyOp (Op.setCourses 1 ("Math".data)) emptyDB) :=
  C2_invariant_amended (Op.setCourses 1 ("Math".data)) emptyDB (by decide) (by decide)
    (by decide)

/-! ### Claim C6: upsert_student_details and the insert_student scenario -/

theorem enroll_loop_preserves (sid : Nat) : ∀ (cs : List Str) (db : DB),
    (enroll_loop sid cs db).students = db.students ∧
    (enroll_loop sid cs db).details = db.details := by
  intro cs
  induction cs with
  | nil => intro db; exact ⟨rfl, rfl⟩
  | cons c rest ih =>
    intro db
    have h := ih (insert_ignore_enrollment (ensureP db c).2 sid (ensureP db c).1)
    obtain ⟨hst2, hdt2, _, _⟩ :=
      insert_ignore_enrollment_facts (ensureP db c).2 sid (ensureP db c).1
    obtain ⟨hst1, hdt1, _, _, _⟩ := insert_ignore_course_facts db c
    constructor
    · show (enroll_loop sid rest _).students = _
      rw [h.1, hst2]
      exact hst1
    · show (enroll_loop sid rest _).details = _
      rw [h.2, hdt2]
      exact hdt1

theorem set_student_coursesP_details (db : DB) (sid : Nat) (csv : Str) :
    (set_student_coursesP db sid csv).details =
      db.details.map (fun d => if d.sid = sid then
        { d with courseS := joinSep commaSpace (normalize_courses (some csv)) } else d) := by
  show (enroll_loop sid (normalize_courses (some csv))
    (delete_enrollments db sid)).details.map _ = _
  rw [(enroll_loop_preserves sid _ _).2]
  rfl

theorem upsert_details_row_find (db : DB) (sid : Nat) (ph csv : Str) :
    ∃ d, (upsert_details_row db sid ph csv).details.find? (fun x => x.sid == sid) = some d ∧
      d.phone = ph ∧ d.courseS = csv := by
  have hgpres : ∀ x : DetailsRow,
      (((if x.sid = sid then { x with phone := ph, courseS := csv } else x) :
        DetailsRow).sid == sid) = (x.sid == sid) := by
    intro x
    split <;> rfl
  by_cases hany : db.details.any (fun x => x.sid == sid) = true
  · have hrec : (upsert_details_row db sid ph csv).details =
        db.details.map (fun x =>
          if x.sid = sid then { x with phone := ph, courseS := csv } else x) := by
      unfold upsert_details_row
      rw [if_pos hany]
    rw [hrec, find?_map_key hgpres]
    obtain ⟨d₀, hd₀⟩ := Option.isSome_iff_exists.mp
      (List.find?_isSome.mpr (List.any_eq_true.mp hany))
    have hp : d₀.sid = sid := by
      have hps := List.find?_some (p := fun x : DetailsRow => x.sid == sid) hd₀
      simpa using hps
    rw [hd₀]
    refine ⟨_, rfl, ?_, ?_⟩
    · show ((if d₀.sid = sid then { d₀ with phone := ph, courseS := csv } else d₀) :
        DetailsRow).phone = ph
      rw [if_pos hp]
    · show ((if d₀.sid = sid then { d₀ with phone := ph, courseS := csv } else d₀) :
        DetailsRow).courseS = csv
      rw [if_pos hp]
  · have hrec : (upsert_details_row db sid ph csv).details =
        db.details ++ [{ sid := sid, phone := ph, courseS := csv }] := by
      unfold upsert_details_row
      rw [if_neg hany]
    rw [hrec, List.find?_append]
    have hnone : db.details.find? (fun x => x.sid == sid) = none := by
      rw [List.find?_eq_none]
      intro a ha hpa
      exact hany (List.any_eq_true.mpr ⟨a, ha, hpa⟩)
    rw [hnone, Option.none_or]
    refine ⟨{ sid := sid, phone := ph, courseS := csv }, ?_, rfl, rfl⟩
    simp [List.find?_cons]

theorem upsert_detailsP_find (db : DB) (sid : Nat) (ph csv : Str) :
    ∃ d, (upsert_student_detailsP db sid ph csv).details.find? (fun x => x.sid == sid) =
      some d ∧ d.phone = ph ∧
      d.courseS = joinSep commaSpace (normalize_courses (some csv)) := by
  have hfpres : ∀ x : DetailsRow,
      (((if x.sid = sid then
          { x with courseS := joinSep commaSpace (normalize_courses (some csv)) } else x) :
        DetailsRow).sid == sid) = (x.sid == sid) := by
    intro x
    split <;> rfl
  have hdets : (upsert_student_detailsP db sid ph csv).details =
      (upsert_details_row db sid ph csv).details.map (fun d => if d.sid = sid then
        { d with courseS := joinSep commaSpace (normalize_courses (some csv)) } else d) :=
    set_student_coursesP_details _ sid csv
  rw [hdets, find?_map_key hfpres]
  obtain ⟨d₀, hd₀, hph, hcs⟩ := upsert_details_row_find db sid ph csv
  have hp : d₀.sid = sid := by
    have hps := List.find?_some (p := fun x : DetailsRow => x.sid == sid) hd₀
    simpa using hps
  rw [hd₀]
  refine ⟨_, rfl, ?_, ?_⟩
  · show ((if d₀.sid = sid then
        { d₀ with courseS := joinSep commaSpace (normalize_courses (some csv)) } else d₀) :
      DetailsRow).phone = ph
    rw [if_pos hp]
    exact hph
  · show ((if d₀.sid = sid then
        { d₀ with courseS := joinSep commaSpace (normalize_courses (some csv)) } else d₀) :
      DetailsRow).courseS = joinSep commaSpace (normalize_courses (some csv))
    rw [if_pos hp]

/-- C6: after upsert_student_details the student's StudentDetails row holds
the given phone number and the normalized comma-joined course list (the raw
CSV written first is overwritten by the normalized write); in particular the
insert_student scenario of spec §8 reports Courses "Bio, Chem" and phone
"555-1234". -/
theorem C6_upsert_student_details_spec :
    (∀ (db : DB) (sid : Nat) (phone csv : Str),
      ∃ db' d, upsert_student_details db sid phone csv = Except.ok db' ∧
        db'.details.find? (fun x => x.sid == sid) = some d ∧
        d.phone = phone ∧
        d.courseS = joinSep commaSpace (normalize_courses (some csv))) ∧
    (∃ db', insert_student emptyDB 1 ("Alice".data) 20 ("a@x.com".data) ("555-1234".data)
        ("Bio, bio, Chem".data) = Except.ok db' ∧
      get_student db' 1 = some (StudentOut.mk 1 ("Alice".data) 20 ("a@x.com".data)
        (some ("555-1234".data)) (some ("Bio, Chem".data)))) := by
  constructor
  · intro db sid phone csv
    obtain ⟨d, hfind, hph, hcs⟩ := upsert_detailsP_find db sid phone csv
    exact ⟨upsert_student_detailsP db sid phone csv, d,
      upsert_student_details_eq db sid phone csv, hfind, hph, hcs⟩
  · refine ⟨insert_studentP emptyDB 1 ("Alice".data) 20 ("a@x.com".data) ("555-1234".data)
      ("Bio, bio, Chem".data), insert_student_eq_ok (by decide), by decide⟩

/-! ### Claim C4: the Courses aggregation of the read queries -/

theorem ciDedup_keys_nodup : ∀ (l seen : List Str),
    ((ciDedup l seen).map casefold).Nodup ∧
    ∀ k ∈ (ciDedup l seen).map casefold, k ∉ seen := by
  intro l
  induction l with
  | nil => intro seen; simp [ciDedup]
  | cons p rest ih =>
    intro seen
    by_cases hs : casefold p ∈ seen
    · simpa [ciDedup, hs] using ih seen
    · simp only [ciDedup, hs, if_true, if_false, List.map_cons]
      obtain ⟨hnd, hnotin⟩ := ih (casefold p :: seen)
      constructor
      · refine List.nodup_cons.mpr ⟨?_, hnd⟩
        intro hmem
        exact hnotin _ hmem (List.mem_cons_self _ _)
      · intro k hk
        rcases List.mem_cons.mp hk with h | h
        · exact h ▸ hs
        · intro hkseen
          exact hnotin k h (List.mem_cons_of_mem _ hkseen)

theorem ciDedup_pairwise (l seen : List Str) :
    List.Pairwise (fun a b => casefold a ≠ casefold b) (ciDedup l seen) :=
  List.pairwise_map.mp (ciDedup_keys_nodup l seen).1

theorem ciDedup_subset : ∀ (l seen : List Str) (t : Str), t ∈ ciDedup l seen → t ∈ l := by
  intro l
  induction l with
  | nil => intro seen t ht; exact absurd ht (List.not_mem_nil t)
  | cons p rest ih =>
    intro seen t ht
    by_cases hs : casefold p ∈ seen
    · simp only [ciDedup, hs, if_true] at ht
      exact List.mem_cons_of_mem p (ih seen t ht)
    · simp only [ciDedup, hs, if_false] at ht
      rcases List.mem_cons.mp ht with rfl | h
      · exact List.mem_cons_self t rest
      · exact List.mem_cons_of_mem p (ih (casefold p :: seen) t h)

theorem ciDedup_covers : ∀ (l seen : List Str) (t : Str), t ∈ l →
    casefold t ∈ (ciDedup l seen).map casefold ∨ casefold t ∈ seen := by
  intro l
  induction l with
  | nil => intro seen t ht; exact absurd ht (List.not_mem_nil t)
  | cons p rest ih =>
    intro seen t ht
    by_cases hs : casefold p ∈ seen
    · simp only [ciDedup, hs, if_true]
      rcases List.mem_cons.mp ht with rfl | h
      · exact Or.inr hs
      · exact ih seen t h
    · simp only [ciDedup, hs, if_false, List.map_cons]
      rcases List.mem_cons.mp ht with rfl | h
      · exact Or.inl (List.mem_cons_self _ _)
      · rcases ih (casefold p :: seen) t h with h' | h'
        · exact Or.inl (List.mem_cons_of_mem _ h')
        · rcases List.mem_cons.mp h' with h'' | h''
          · exact Or.inl (h'' ▸ List.mem_cons_self _ _)
          · exact Or.inr h''

theorem ciDedup_ne_nil {l : List Str} (h : l ≠ []) : ciDedup l [] ≠ [] := by
  cases l with
  | nil => exact absurd rfl h
  | cons p rest =>
    simp [ciDedup]

theorem joinSep_ne_nil {l : List Str} (h : l ≠ []) (ht : ∀ t ∈ l, t ≠ []) :
    joinSep commaSpace l ≠ [] := by
  cases l with
  | nil => exact absurd rfl h
  | cons x xs =>
    cases xs with
    | nil => exact ht x (List.mem_cons_self x [])
    | cons y ys =>
      show x ++ commaSpace ++ joinSep commaSpace (y :: ys) ≠ []
      intro hnil
      rcases List.append_eq_nil.mp hnil with ⟨h1, _⟩
      rcases List.append_eq_nil.mp h1 with ⟨h2, _⟩
      exact ht x (List.mem_cons_self x _) h2

/-- C4: the Courses value of the read queries is the alphabetically ordered,
comma-space-joined, case-insensitively deduplicated list of the course names
reachable through the student's enrollment rows whenever any are reachable
(the legacy field is ignored then), and falls back to the legacy CourseS
field when the student has no enrollment rows; every row reported by
list_students and get_student carries exactly this value. -/
theorem C4_courses_aggregation (db : DB) (sid : Nat) :
    (db.enroll.filter (fun p => p.1 == sid) = [] →
      coursesAgg db sid = (db.details.find? (fun d => d.sid == sid)).map
        (fun d => d.courseS)) ∧
    (reachNames db sid ≠ [] → (∀ n ∈ reachNames db sid, n ≠ []) →
      ∃ l, coursesAgg db sid = some (joinSep commaSpace l) ∧
        List.Sorted keyLe l ∧
        List.Pairwise (fun a b => casefold a ≠ casefold b) l ∧
        (∀ m ∈ l, m ∈ reachNames db sid) ∧
        (∀ n ∈ reachNames db sid, casefold n ∈ l.map casefold)) ∧
    (∀ q : Option Nat, ∀ r ∈ list_students db q, r.courses = coursesAgg db r.sid) ∧
    (∀ r, get_student db sid = some r → r.sid = sid ∧ r.courses = coursesAgg db sid) := by
  refine ⟨?_, ?_, ?_, ?_⟩
  · intro hf
    have hreach : reachNames db sid = [] := by
      unfold reachNames
      rw [hf]
      rfl
    unfold coursesAgg
    rw [hreach]
    rfl
  · intro hne htok
    have hperm : List.insertionSort keyLe (ciDedup (reachNames db sid) []) |>.Perm
        (ciDedup (reachNames db sid) []) := List.perm_insertionSort keyLe _
    have hmeml : ∀ m ∈ List.insertionSort keyLe (ciDedup (reachNames db sid) []),
        m ∈ reachNames db sid := by
      intro m hm
      exact ciDedup_subset _ [] m (hperm.mem_iff.mp hm)
    have hlne : List.insertionSort keyLe (ciDedup (reachNames db sid) []) ≠ [] := by
      intro h
      rw [h] at hperm
      exact ciDedup_ne_nil hne hperm.symm.eq_nil
    have hjne : joinSep commaSpace
        (List.insertionSort keyLe (ciDedup (reachNames db sid) [])) ≠ [] :=
      joinSep_ne_nil hlne (fun t ht => htok t (hmeml t ht))
    refine ⟨List.insertionSort keyLe (ciDedup (reachNames db sid) []), ?_, ?_, ?_, hmeml, ?_⟩
    · unfold coursesAgg
      rw [if_neg hjne]
    · exact List.sorted_insertionSort keyLe _
    · exact (hperm.pairwise_iff (fun h heq => h heq.symm)).mpr
        (ciDedup_pairwise _ [])
    · intro n hn
      have h := (ciDedup_covers _ [] n hn).resolve_right (by simp)
      exact ((hperm.map casefold).mem_iff).mpr h
  · intro q r hr
    obtain ⟨s, _, rfl⟩ := List.mem_map.mp hr
    rfl
  · intro r hget
    cases hl : list_students db (some sid) with
    | nil =>
      unfold get_student at hget
      rw [hl] at hget
      cases hget
    | cons a t =>
      unfold get_student at hget
      rw [hl] at hget
      have hra : a = r := by
        injection hget
      subst hra
      have ham : a ∈ list_students db (some sid) := by
        rw [hl]
        exact List.mem_cons_self a t
      obtain ⟨s, hs, hout⟩ := List.mem_map.mp ham
      have hsmem : s ∈ db.students.filter (fun s => s.sid == sid) :=
        (List.perm_insertionSort _ _).mem_iff.mp hs
      have hssid : s.sid = sid := beq_iff_eq.mp (List.mem_filter.mp hsmem).2
      constructor
      · rw [← hout]
        exact hssid
      · rw [← hout, ← hssid]
        rfl

/-- Witness for C4: the legacy fallback reports "Biology" for a student with
no enrollment rows, and with an enrollment row present the aggregate is
populated from the join table. -/
theorem C4_witness :
    coursesAgg (DB.mk [StudentRow.mk 1 ("A".data) 20 ("e".data)]
      [DetailsRow.mk 1 ("p".data) ("Biology".data)] [] [] 1) 1 =
      some ("Biology".data) ∧
    (coursesAgg (DB.mk [StudentRow.mk 1 ("A".data) 20 ("e".data)]
      [DetailsRow.mk 1 ("p".data) ("Biology".data)]
      [CourseRow.mk 1 ("Math".data)] [(1, 1)] 2) 1).isSome = true ∧
    (student_row_out (DB.mk [StudentRow.mk 1 ("A".data) 20 ("e".data)]
      [DetailsRow.mk 1 ("p".data) ("Biology".data)] [] [] 1)
      (StudentRow.mk 1 ("A".data) 20 ("e".data))).courses =
      coursesAgg (DB.mk [StudentRow.mk 1 ("A".data) 20 ("e".data)]
        [DetailsRow.mk 1 ("p".data) ("Biology".data)] [] [] 1) 1 := by
  refine ⟨?_, ?_, ?_⟩
  · have h := (C4_courses_aggregation (DB.mk [StudentRow.mk 1 ("A".data) 20 ("e".data)]
      [DetailsRow.mk 1 ("p".data) ("Biology".data)] [] [] 1) 1).1 (by decide)
    rw [h]
    decide
  · obtain ⟨l, hl, _⟩ := (C4_courses_aggregation (DB.mk [StudentRow.mk 1 ("A".data) 20
      ("e".data)] [DetailsRow.mk 1 ("p".data) ("Biology".data)]
      [CourseRow.mk 1 ("Math".data)] [(1, 1)] 2) 1).2.1 (by decide) (by decide)
    rw [hl]
    rfl
  · have h := (C4_courses_aggregation (DB.mk [StudentRow.mk 1 ("A".data) 20 ("e".data)]
      [DetailsRow.mk 1 ("p".data) ("Biology".data)] [] [] 1) 1).2.2.1 (some 1)
    exact h _ (by decide)

/-! ### Claim C9: list_courses -/

/-- C9: list_courses returns each course row exactly once (the reported
CourseIDs are a permutation of the Course table's), ordered by course name,
with COUNT(sc.StudentID) equal to the number of distinct enrolled students
(the unique pair constraint makes the join rows per course distinct), and
zero for courses without enrollments. -/
theorem C9_list_courses_spec (db : DB) (hwf : WF db) :
    ((list_courses db).map (fun o => o.cid)).Perm (db.courses.map (fun r => r.cid)) ∧
    List.Sorted (fun a b : CourseOut => keyLe a.name b.name) (list_courses db) ∧
    (∀ o ∈ list_courses db,
      o.count = (((db.enroll.filter (fun p => p.2 == o.cid)).map
        (fun p => p.1)).dedup).length) ∧
    (∀ o ∈ list_courses db, db.enroll.filter (fun p => p.2 == o.cid) = [] →
      o.count = 0) := by
  have htot : IsTotal CourseRow (fun a b => keyLe a.name b.name) :=
    ⟨fun a b => IsTotal.total (r := keyLe) a.name b.name⟩
  have htrans : IsTrans CourseRow (fun a b => keyLe a.name b.name) :=
    ⟨fun a b c hab hbc => IsTrans.trans (r := keyLe) a.name b.name c.name hab hbc⟩
  have hcount : ∀ o ∈ list_courses db,
      o.count = (((db.enroll.filter (fun p => p.2 == o.cid)).map
        (fun p => p.1)).dedup).length := by
    intro o ho
    obtain ⟨c, _, rfl⟩ := List.mem_map.mp ho
    show (db.enroll.filter (fun p => p.2 == c.cid)).length = _
    have hnodupf : (db.enroll.filter (fun p => p.2 == c.cid)).Nodup :=
      (List.filter_sublist _).nodup hwf.2.2.2.2.1
    have hnodupm : ((db.enroll.filter (fun p => p.2 == c.cid)).map
        (fun p => p.1)).Nodup := by
      apply hnodupf.map_on
      intro x hx y hy hxy
      have hx2 : x.2 = c.cid := beq_iff_eq.mp (List.mem_filter.mp hx).2
      have hy2 : y.2 = c.cid := beq_iff_eq.mp (List.mem_filter.mp hy).2
      exact Prod.ext_iff.mpr ⟨hxy, hx2.trans hy2.symm⟩
    rw [hnodupm.dedup, List.length_map]
  refine ⟨?_, ?_, hcount, ?_⟩
  · have hmm : (list_courses db).map (fun o => o.cid) =
        (List.insertionSort (fun a b : CourseRow => keyLe a.name b.name) db.courses).map
          (fun c => c.cid) := by
      unfold list_courses
      rw [List.map_map]
      rfl
    rw [hmm]
    exact (List.perm_insertionSort _ _).map _
  · unfold list_courses
    apply List.pairwise_map.mpr
    exact List.sorted_insertionSort _ _
  · intro o ho hnil
    rw [hcount o ho, hnil]
    rfl

/-- Witness for C9 at a concrete store with two courses and enrollments. -/
theorem C9_witness :
    List.Sorted (fun a b : CourseOut => keyLe a.name b.name)
      (list_courses (DB.mk [] [] [CourseRow.mk 1 ("Math".data), CourseRow.mk 2 ("Art".data)]
        [(1, 1), (1, 2)] 3)) :=
  (C9_list_courses_spec (DB.mk [] [] [CourseRow.mk 1 ("Math".data),
    CourseRow.mk 2 ("Art".data)] [(1, 1), (1, 2)] 3) (by decide)).2.1

/-! ### Claim C10: get_student -/

/-- C10: get_student returns None exactly when no Student row with the given
identifier exists; otherwise the identifier-filtered listing is the single
aggregated row for that student (grouping by StudentID under the primary key
yields at most one row). -/
theorem C10_get_student_spec (db : DB) (sid : Nat) (hwf : WF db) :
    (get_student db sid = none ↔ ∀ s ∈ db.students, s.sid ≠ sid) ∧
    (list_students db (some sid)).length ≤ 1 ∧
    (∀ r, get_student db sid = some r → r.sid = sid ∧
      list_students db (some sid) = [r]) := by
  have hdef : list_students db (some sid) =
      (List.insertionSort (fun a b : StudentRow => b.sid ≤ a.sid)
        (db.students.filter (fun s => s.sid == sid))).map (student_row_out db) := rfl
  have hlen : (list_students db (some sid)).length ≤ 1 := by
    rw [hdef, List.length_map, (List.perm_insertionSort _ _).length_eq]
    exact filter_key_le_one hwf.1
  refine ⟨?_, hlen, ?_⟩
  · unfold get_student
    rw [List.head?_eq_none_iff, hdef, List.map_eq_nil_iff]
    constructor
    · intro hnil s hs hsid
      have hsf : s ∈ db.students.filter (fun s => s.sid == sid) :=
        List.mem_filter.mpr ⟨hs, by simp [hsid]⟩
      have hperm := List.perm_insertionSort (fun a b : StudentRow => b.sid ≤ a.sid)
        (db.students.filter (fun s => s.sid == sid))
      rw [hnil] at hperm
      rw [hperm.symm.eq_nil] at hsf
      exact absurd hsf (List.not_mem_nil s)
    · intro hall
      have hfnil : db.students.filter (fun s => s.sid == sid) = [] := by
        rw [List.filter_eq_nil_iff]
        intro s hs
        simp only [beq_iff_eq]
        exact hall s hs
      rw [hfnil]
      rfl
  · intro r hget
    cases hl : list_students db (some sid) with
    | nil =>
      unfold get_student at hget
      rw [hl] at hget
      cases hget
    | cons a t =>
      unfold get_student at hget
      rw [hl] at hget
      have hra : a = r := by injection hget
      subst hra
      have ham : a ∈ list_students db (some sid) := by
        rw [hl]
        exact List.mem_cons_self a t
      obtain ⟨s, hs, hout⟩ := List.mem_map.mp ham
      have hsmem : s ∈ db.students.filter (fun s => s.sid == sid) :=
        (List.perm_insertionSort _ _).mem_iff.mp hs
      have hssid : s.sid = sid := beq_iff_eq.mp (List.mem_filter.mp hsmem).2
      refine ⟨by rw [← hout]; exact hssid, ?_⟩
      have hlenl : (a :: t).length ≤ 1 := by
        rw [← hl]
        exact hlen
      have ht : t = [] := by
        cases t with
        | nil => rfl
        | cons b u =>
          exfalso
          simp at hlenl
      rw [ht]

/-- Witness for C10 at a concrete store. -/
theorem C10_witness :
    get_student (DB.mk [StudentRow.mk 1 ("A".data) 20 ("e".data)] [] [] [] 1) 2 = none ↔
      ∀ s ∈ (DB.mk [StudentRow.mk 1 ("A".data) 20 ("e".data)] [] [] [] 1).students,
        s.sid ≠ 2 :=
  (C10_get_student_spec (DB.mk [StudentRow.mk 1 ("A".data) 20 ("e".data)] [] [] [] 1) 2
    (by decide)).1
